import Mathlib

/-!
A shallow embedding of the `transactions_parser` repository: the block
text format (`src/txt_format.rs`) and the streaming read facade
(`src/lib.rs`).  Strings are modelled as lists of characters, byte
streams as lists of natural numbers (each below 256 in meaningful
inputs), and the incremental reader as a function from the remaining
byte stream to a result together with the unconsumed remainder.
-/

set_option maxRecDepth 40000

namespace TxnBlock

/-- Rust `String` / `&str` values are modelled as lists of characters. -/
abbrev Str := List Char

/-- The closed transaction-kind enumeration of `txt_format.rs`. -/
inductive TransactionType where
  | Deposit
  | Transfer
  | Withdrawal
deriving DecidableEq

/-- The closed transaction-status enumeration of `txt_format.rs`. -/
inductive TransactionStatus where
  | Pending
  | Success
  | Failure
deriving DecidableEq

/-- `FromStr` / serde deserialization for `TransactionType`: the three
canonical uppercase wire spellings, everything else is rejected. -/
def TransactionType.fromWire (s : Str) : Option TransactionType :=
  if s = ['D', 'E', 'P', 'O', 'S', 'I', 'T'] then some .Deposit
  else if s = ['T', 'R', 'A', 'N', 'S', 'F', 'E', 'R'] then some .Transfer
  else if s = ['W', 'I', 'T', 'H', 'D', 'R', 'A', 'W', 'A', 'L'] then some .Withdrawal
  else none

/-- `Display` for `TransactionType`: canonical uppercase wire names. -/
def TransactionType.toWire : TransactionType → Str
  | .Deposit => ['D', 'E', 'P', 'O', 'S', 'I', 'T']
  | .Transfer => ['T', 'R', 'A', 'N', 'S', 'F', 'E', 'R']
  | .Withdrawal => ['W', 'I', 'T', 'H', 'D', 'R', 'A', 'W', 'A', 'L']

/-- `FromStr` / serde deserialization for `TransactionStatus`. -/
def TransactionStatus.fromWire (s : Str) : Option TransactionStatus :=
  if s = ['P', 'E', 'N', 'D', 'I', 'N', 'G'] then some .Pending
  else if s = ['S', 'U', 'C', 'C', 'E', 'S', 'S'] then some .Success
  else if s = ['F', 'A', 'I', 'L', 'U', 'R', 'E'] then some .Failure
  else none

/-- `Display` for `TransactionStatus`. -/
def TransactionStatus.toWire : TransactionStatus → Str
  | .Pending => ['P', 'E', 'N', 'D', 'I', 'N', 'G']
  | .Success => ['S', 'U', 'C', 'C', 'E', 'S', 'S']
  | .Failure => ['F', 'A', 'I', 'L', 'U', 'R', 'E']

/-- The record struct `YPBankTextRecord` of `txt_format.rs`.  The
unsigned machine integers `u32`/`u64` are modelled as natural numbers;
the width bounds appear as explicit `< 2^32` / `< 2^64` side conditions
where they matter. -/
structure YPBankTextRecord where
  id : Nat
  transaction_type : TransactionType
  from_user_id : Nat
  to_user_id : Nat
  amount : Nat
  timestamp : Nat
  transaction_status : TransactionStatus
  description : Str
deriving DecidableEq

/-- The error taxonomy `TextRecordError` of `txt_format.rs`.  The
payload of `ReadLineError` (an `std::io::Error`) is irrelevant to the
pure model and dropped; `ParseError` keeps its message string. -/
inductive TextRecordError where
  | MissingColonAfterKey
  | ReadLineError
  | ParseError (error : Str)
  | SourceIsEmpty
  | EmptyLinesAtEndOfFile
deriving DecidableEq

/-- Rust `char::is_whitespace`: the Unicode `White_Space` property,
which is what `str::trim` strips from both ends. -/
def isRustWhitespace (c : Char) : Bool :=
  (9 ≤ c.toNat && c.toNat ≤ 13) || c.toNat = 32 || c.toNat = 0x85 || c.toNat = 0xA0 ||
    c.toNat = 0x1680 || (0x2000 ≤ c.toNat && c.toNat ≤ 0x200A) || c.toNat = 0x2028 ||
    c.toNat = 0x2029 || c.toNat = 0x202F || c.toNat = 0x205F || c.toNat = 0x3000

/-- `str::trim_start`. -/
def trimLeft (s : Str) : Str := s.dropWhile isRustWhitespace

/-- `str::trim_end`. -/
def trimRight (s : Str) : Str := (s.reverse.dropWhile isRustWhitespace).reverse

/-- Rust `str::trim`: whitespace stripped from both ends. -/
def rustTrim (s : Str) : Str := trimRight (trimLeft s)

/-- `trimmed_line.starts_with('#')`. -/
def startsWithHash (s : Str) : Bool :=
  match s with
  | c :: _ => c = '#'
  | [] => false

/-- Rust `str::split_once(':')`: the text before the first `:` and the
text after it, or `none` when no `:` occurs. -/
def splitOnceColon : Str → Option (Str × Str)
  | [] => none
  | c :: rest =>
    if c = ':' then some ([], rest)
    else
      match splitOnceColon rest with
      | some (a, b) => some (c :: a, b)
      | none => none

/-- ASCII decimal digit test used by unsigned-integer parsing. -/
def isDigitChar (c : Char) : Bool := 48 ≤ c.toNat && c.toNat ≤ 57

/-- A leading `+` sign, accepted by Rust's unsigned `FromStr`. -/
def stripPlus (s : Str) : Str :=
  match s with
  | c :: t => if c = '+' then t else s
  | [] => s

/-- Rust `u32::from_str` / `u64::from_str` (via serde `DisplayFromStr`):
an optional `+` sign followed by at least one ASCII digit, read in
decimal; overflow past `bound` fails.  No sign other than `+`, no
whitespace and no other characters are accepted. -/
def parseUnsigned (bound : Nat) (s : Str) : Option Nat :=
  let ds := stripPlus s
  if !ds.isEmpty && ds.all isDigitChar then
    let v := ds.foldl (fun a c => a * 10 + (c.toNat - 48)) 0
    if v < bound then some v else none
  else none

/-- `u32::from_str`. -/
def parseU32 (s : Str) : Option Nat := parseUnsigned (2 ^ 32) s

/-- `u64::from_str`. -/
def parseU64 (s : Str) : Option Nat := parseUnsigned (2 ^ 64) s

/-- The character `'0' + d` for a decimal digit `d`. -/
def digitChar (d : Nat) : Char := Char.ofNat (48 + d)

/-- Fuel-driven accumulator loop producing the decimal digits of `n`
most-significant first (the executable form of Rust's `{}` rendering of
an unsigned integer). -/
def natToCharsAux : Nat → Nat → List Char → List Char
  | 0, _, acc => acc
  | fuel + 1, n, acc =>
    if n < 10 then digitChar (n % 10) :: acc
    else natToCharsAux fuel (n / 10) (digitChar (n % 10) :: acc)

/-- Rust `Display` for unsigned integers: decimal, no sign, no leading
zeros (`0` renders as `"0"`). -/
def natToChars (n : Nat) : Str := natToCharsAux (n + 1) n []

/-- One UTF-8 encoded character, as byte values. -/
def utf8EncodeChar (c : Char) : List Nat :=
  let n := c.toNat
  if n < 0x80 then [n]
  else if n < 0x800 then [0xC0 + n / 0x40, 0x80 + n % 0x40]
  else if n < 0x10000 then [0xE0 + n / 0x1000, 0x80 + n / 0x40 % 0x40, 0x80 + n % 0x40]
  else [0xF0 + n / 0x40000, 0x80 + n / 0x1000 % 0x40, 0x80 + n / 0x40 % 0x40, 0x80 + n % 0x40]

/-- UTF-8 encoding of a string, as byte values. -/
def utf8Encode : Str → List Nat
  | [] => []
  | c :: s => utf8EncodeChar c ++ utf8Encode s

/-- A UTF-8 continuation byte. -/
def isContByte (b : Nat) : Bool := 0x80 ≤ b && b < 0xC0

/-- One step of strict UTF-8 decoding: the code point introduced by
lead byte `b` (with continuation bytes taken from `bs`) and the
remaining bytes, or `none` for a malformed sequence.  Rejects stray
continuation bytes, overlong forms, surrogate code points and values
above `0x10FFFF`. -/
def utf8Step (b : Nat) (bs : List Nat) : Option (Nat × List Nat) :=
  if b < 0x80 then some (b, bs)
  else if b < 0xC2 then none
  else if b < 0xE0 then
    match bs with
    | b1 :: bs1 =>
      if isContByte b1 then some ((b - 0xC0) * 0x40 + (b1 - 0x80), bs1) else none
    | [] => none
  else if b < 0xF0 then
    match bs with
    | b1 :: b2 :: bs2 =>
      if isContByte b1 && isContByte b2 then
        if 0x800 ≤ (b - 0xE0) * 0x1000 + (b1 - 0x80) * 0x40 + (b2 - 0x80) &&
            ((b - 0xE0) * 0x1000 + (b1 - 0x80) * 0x40 + (b2 - 0x80) < 0xD800 ||
              0xDFFF < (b - 0xE0) * 0x1000 + (b1 - 0x80) * 0x40 + (b2 - 0x80)) then
          some ((b - 0xE0) * 0x1000 + (b1 - 0x80) * 0x40 + (b2 - 0x80), bs2)
        else none
      else none
    | _ => none
  else
    match bs with
    | b1 :: b2 :: b3 :: bs3 =>
      if isContByte b1 && isContByte b2 && isContByte b3 then
        if 0x10000 ≤ (b - 0xF0) * 0x40000 + (b1 - 0x80) * 0x1000 + (b2 - 0x80) * 0x40 +
              (b3 - 0x80) &&
            (b - 0xF0) * 0x40000 + (b1 - 0x80) * 0x1000 + (b2 - 0x80) * 0x40 + (b3 - 0x80) <
              0x110000 then
          some ((b - 0xF0) * 0x40000 + (b1 - 0x80) * 0x1000 + (b2 - 0x80) * 0x40 + (b3 - 0x80),
            bs3)
        else none
      else none
    | _ => none

/-- Fuel-driven strict UTF-8 decoding loop; every step consumes at
least one byte, so fuel equal to the byte count is always enough. -/
def utf8DecodeAux : Nat → List Nat → Option Str
  | 0, bs => match bs with | [] => some [] | _ :: _ => none
  | _ + 1, [] => some []
  | fuel + 1, b :: bs =>
    match utf8Step b bs with
    | none => none
    | some (n, bs2) => (utf8DecodeAux fuel bs2).map (Char.ofNat n :: ·)

/-- Strict UTF-8 decoding (`std::str::from_utf8`). -/
def utf8Decode (bs : List Nat) : Option Str := utf8DecodeAux bs.length bs

/-- The key/value accumulator: `HashMap<String, String>` modelled as an
insertion-ordered association list with unique keys. -/
abbrev KV := List (Str × Str)

/-- `HashMap::insert`: overwrite the value when the key is present,
append the pair otherwise. -/
def kvInsert (m : KV) (k v : Str) : KV :=
  if m.any (fun p => p.1 = k) then
    m.map (fun p => if p.1 = k then (k, v) else p)
  else m ++ [(k, v)]

/-- `HashMap::get`-style lookup (keys are unique in maps built by
`kvInsert`). -/
def kvLookup (m : KV) (k : Str) : Option Str :=
  match m with
  | [] => none
  | (k', v) :: rest => if k' = k then some v else kvLookup rest k

/-- The eight field names accepted by `YPBankTextRecord`'s serde
schema (`deny_unknown_fields`). -/
def knownKeys : List Str :=
  [['T', 'X', '_', 'I', 'D'],
   ['T', 'X', '_', 'T', 'Y', 'P', 'E'],
   ['F', 'R', 'O', 'M', '_', 'U', 'S', 'E', 'R', '_', 'I', 'D'],
   ['T', 'O', '_', 'U', 'S', 'E', 'R', '_', 'I', 'D'],
   ['A', 'M', 'O', 'U', 'N', 'T'],
   ['T', 'I', 'M', 'E', 'S', 'T', 'A', 'M', 'P'],
   ['S', 'T', 'A', 'T', 'U', 'S'],
   ['D', 'E', 'S', 'C', 'R', 'I', 'P', 'T', 'I', 'O', 'N']]

/-- `YPBankTextRecord::parse_transaction`: serde `MapDeserializer` over
the drained map with `deny_unknown_fields`.  It succeeds exactly when
the key set is the eight known keys and every value coerces to its
field type; any failure surfaces as `ParseError` (the `From` impl for
`serde::de::value::Error`).  The message strings stand in for serde's
formatted messages. -/
def parse_transaction (m : KV) : Except TextRecordError YPBankTextRecord :=
  if m.all (fun p => knownKeys.contains p.1) then
    match kvLookup m ['T', 'X', '_', 'I', 'D'], kvLookup m ['T', 'X', '_', 'T', 'Y', 'P', 'E'],
        kvLookup m ['F', 'R', 'O', 'M', '_', 'U', 'S', 'E', 'R', '_', 'I', 'D'],
        kvLookup m ['T', 'O', '_', 'U', 'S', 'E', 'R', '_', 'I', 'D'],
        kvLookup m ['A', 'M', 'O', 'U', 'N', 'T'],
        kvLookup m ['T', 'I', 'M', 'E', 'S', 'T', 'A', 'M', 'P'],
        kvLookup m ['S', 'T', 'A', 'T', 'U', 'S'],
        kvLookup m ['D', 'E', 'S', 'C', 'R', 'I', 'P', 'T', 'I', 'O', 'N'] with
    | some s1, some s2, some s3, some s4, some s5, some s6, some s7, some s8 =>
      match parseU32 s1, TransactionType.fromWire s2, parseU32 s3, parseU32 s4,
          parseU64 s5, parseU64 s6, TransactionStatus.fromWire s7 with
      | some v1, some v2, some v3, some v4, some v5, some v6, some v7 =>
        .ok ⟨v1, v2, v3, v4, v5, v6, v7, s8⟩
      | _, _, _, _, _, _, _ =>
        .error (.ParseError ['i', 'n', 'v', 'a', 'l', 'i', 'd', ' ', 'v', 'a', 'l', 'u', 'e'])
    | _, _, _, _, _, _, _, _ =>
      .error (.ParseError ['m', 'i', 's', 's', 'i', 'n', 'g', ' ', 'f', 'i', 'e', 'l', 'd'])
  else .error (.ParseError ['u', 'n', 'k', 'n', 'o', 'w', 'n', ' ', 'f', 'i', 'e', 'l', 'd'])

/-- The inner byte loop of `from_read`: bytes of the current line (up
to, excluding, the next `\n`), the unconsumed remainder, and whether
end-of-input was hit instead of a newline. -/
def readLine : List Nat → List Nat × List Nat × Bool
  | [] => ([], [], true)
  | b :: bs =>
    if b = 10 then ([], bs, false)
    else
      let r := readLine bs
      (b :: r.1, r.2.1, r.2.2)

/-- The `ParseError` message for a line that is not valid UTF-8. -/
def invalidUtf8Msg : Str :=
  ['I', 'n', 'v', 'a', 'l', 'i', 'd', ' ', 'U', 'T', 'F', '-', '8']

/-- The outer loop of `YPBankTextRecord::from_read`, one iteration per
line.  `fuel` only forces termination: each iteration consumes at least
one byte of `input` except the final one at end-of-input, so any fuel
above `input.length` is never exhausted (`from_read_aux_fuel_congr`);
the fuel-out branch is dead code.  The second component of the result
is the unconsumed remainder of the stream. -/
def from_read_aux : Nat → KV → Bool → List Nat →
    Except TextRecordError YPBankTextRecord × List Nat
  | 0, _, _, input => (.error .ReadLineError, input)
  | fuel + 1, kv_pairs, has_started, input =>
    let r := readLine input
    let line_buf := r.1
    let rest := r.2.1
    let eof := r.2.2
    let hs := has_started || !input.isEmpty
    match utf8Decode line_buf with
    | none => (.error (.ParseError invalidUtf8Msg), rest)
    | some line_str =>
      let trimmed_line := rustTrim line_str
      if startsWithHash trimmed_line then from_read_aux fuel kv_pairs hs rest
      else if trimmed_line.isEmpty then
        if !kv_pairs.isEmpty then (parse_transaction kv_pairs, rest)
        else if eof then
          if !hs then (.error .SourceIsEmpty, rest)
          else (.error .EmptyLinesAtEndOfFile, rest)
        else from_read_aux fuel kv_pairs hs rest
      else
        match splitOnceColon trimmed_line with
        | none => (.error .MissingColonAfterKey, rest)
        | some (k, v) =>
          let kv2 := kvInsert kv_pairs (rustTrim k) (rustTrim v)
          if eof && !kv2.isEmpty then (parse_transaction kv2, rest)
          else from_read_aux fuel kv2 hs rest

/-- `YPBankTextRecord::from_read` on the remaining byte stream: one
record or one error, together with the unconsumed remainder. -/
def from_read (input : List Nat) : Except TextRecordError YPBankTextRecord × List Nat :=
  from_read_aux (input.length + 1) [] false input

/-- One `writeln!(w, "KEY: value")` call: the UTF-8 bytes of the line
followed by the newline byte. -/
def writelnBytes (l : Str) : List Nat := utf8Encode l ++ [10]

/-- `YPBankTextRecord::write_to`: eight `KEY: value` lines in the fixed
canonical order, then one empty line, flushed to the sink. -/
def write_to (rec : YPBankTextRecord) : List Nat :=
  writelnBytes (['T', 'X', '_', 'I', 'D', ':', ' '] ++ natToChars rec.id) ++
  writelnBytes (['T', 'X', '_', 'T', 'Y', 'P', 'E', ':', ' '] ++ rec.transaction_type.toWire) ++
  writelnBytes (['F', 'R', 'O', 'M', '_', 'U', 'S', 'E', 'R', '_', 'I', 'D', ':', ' '] ++
    natToChars rec.from_user_id) ++
  writelnBytes (['T', 'O', '_', 'U', 'S', 'E', 'R', '_', 'I', 'D', ':', ' '] ++
    natToChars rec.to_user_id) ++
  writelnBytes (['A', 'M', 'O', 'U', 'N', 'T', ':', ' '] ++ natToChars rec.amount) ++
  writelnBytes (['T', 'I', 'M', 'E', 'S', 'T', 'A', 'M', 'P', ':', ' '] ++
    natToChars rec.timestamp) ++
  writelnBytes (['S', 'T', 'A', 'T', 'U', 'S', ':', ' '] ++ rec.transaction_status.toWire) ++
  writelnBytes (['D', 'E', 'S', 'C', 'R', 'I', 'P', 'T', 'I', 'O', 'N', ':', ' '] ++
    rec.description) ++
  writelnBytes []

/-!  ### Basic lemmas about trimming  -/

theorem trimLeft_cons_of_ws {c : Char} (s : Str) (h : isRustWhitespace c = true) :
    trimLeft (c :: s) = trimLeft s := by
  simp [trimLeft, List.dropWhile_cons, h]

theorem trimLeft_cons_of_not_ws {c : Char} (s : Str) (h : isRustWhitespace c = false) :
    trimLeft (c :: s) = c :: s := by
  simp [trimLeft, List.dropWhile_cons, h]

theorem rustTrim_cons_of_ws {c : Char} (s : Str) (h : isRustWhitespace c = true) :
    rustTrim (c :: s) = rustTrim s := by
  simp [rustTrim, trimLeft_cons_of_ws s h]

theorem trimRight_append_of_not_ws {c : Char} (s : Str) (h : isRustWhitespace c = false) :
    trimRight (s ++ [c]) = s ++ [c] := by
  simp [trimRight, List.dropWhile_cons, h]

theorem rustTrim_eq_self_of {c : Char} (s : Str) (hc : isRustWhitespace c = false)
    (hl : isRustWhitespace ((c :: s).getLast (by simp)) = false) :
    rustTrim (c :: s) = c :: s := by
  have hne : (c :: s) ≠ [] := by simp
  rw [rustTrim, trimLeft_cons_of_not_ws s hc]
  calc trimRight (c :: s) = trimRight ((c :: s).dropLast ++ [(c :: s).getLast hne]) := by
        rw [List.dropLast_concat_getLast hne]
    _ = (c :: s).dropLast ++ [(c :: s).getLast hne] := trimRight_append_of_not_ws _ hl
    _ = c :: s := List.dropLast_concat_getLast hne

theorem rustTrim_of_all_not_ws (s : Str) (h : ∀ x ∈ s, isRustWhitespace x = false) :
    rustTrim s = s := by
  match s with
  | [] => rfl
  | c :: s => exact rustTrim_eq_self_of s (h c (by simp)) (h _ (List.getLast_mem _))

theorem length_trimRight_le (s : Str) : (trimRight s).length ≤ s.length := by
  simpa [trimRight] using (List.dropWhile_suffix isRustWhitespace (l := s.reverse)).length_le

theorem length_rustTrim_le (s : Str) : (rustTrim s).length ≤ s.length :=
  le_trans (length_trimRight_le _)
    (by simpa [trimLeft] using (List.dropWhile_suffix isRustWhitespace (l := s)).length_le)

theorem getLast_not_ws_of_rustTrim_eq_self (s : Str) (h : rustTrim s = s) (hne : s ≠ []) :
    isRustWhitespace (s.getLast hne) = false := by
  by_contra hws
  have hws : isRustWhitespace (s.getLast hne) = true := by
    revert hws; cases isRustWhitespace (s.getLast hne) <;> simp
  -- the left-trimmed list is a suffix of `s`
  obtain ⟨p, hp⟩ := List.dropWhile_suffix (l := s) isRustWhitespace
  by_cases ht : trimLeft s = []
  · rw [rustTrim, ht] at h
    simp only [trimRight, List.reverse_nil, List.dropWhile_nil] at h
    exact hne h.symm
  · -- the suffix keeps the last element of `s`
    have hlast : (trimLeft s).getLast ht = s.getLast hne := by
      have : (p ++ trimLeft s).getLast (by simp [ht]) = (trimLeft s).getLast ht := by
        rw [List.getLast_append _]
        simp [List.isEmpty_iff, ht]
      simpa only [show p ++ trimLeft s = s from hp] using this.symm
    -- so right-trimming strictly shrinks it
    have hdrop : trimLeft s = (trimLeft s).dropLast ++ [(trimLeft s).getLast ht] :=
      (List.dropLast_concat_getLast ht).symm
    have hlen : (rustTrim s).length < s.length := by
      have h1 : (rustTrim s).length ≤ (trimLeft s).dropLast.length := by
        rw [rustTrim, hdrop, trimRight]
        have : ((trimLeft s).dropLast ++ [(trimLeft s).getLast ht]).reverse =
            (trimLeft s).getLast ht :: (trimLeft s).dropLast.reverse := by simp
        rw [this, List.dropWhile_cons, hlast, hws]
        simpa using (List.dropWhile_suffix isRustWhitespace
          (l := (trimLeft s).dropLast.reverse)).length_le
      have h2 : (trimLeft s).dropLast.length < (trimLeft s).length := by
        rw [List.length_dropLast]
        have : 0 < (trimLeft s).length := List.length_pos.mpr ht
        omega
      have h3 : (trimLeft s).length ≤ s.length := by
        simpa [trimLeft] using (List.dropWhile_suffix isRustWhitespace (l := s)).length_le
      omega
    rw [h] at hlen
    exact lt_irrefl _ hlen

theorem rustTrim_space_cons (v : Str) (h : rustTrim v = v) : rustTrim (' ' :: v) = v := by
  rw [rustTrim_cons_of_ws v (by decide), h]

/-!  ### Lemmas about `splitOnceColon`  -/

theorem splitOnceColon_append (a b : Str) (h : ':' ∉ a) :
    splitOnceColon (a ++ ':' :: b) = some (a, b) := by
  induction a with
  | nil => simp [splitOnceColon]
  | cons c t ih =>
    have hc : c ≠ ':' := fun hc => h (hc ▸ List.mem_cons_self c t)
    have ht : ':' ∉ t := fun hm => h (List.mem_cons_of_mem c hm)
    simp [splitOnceColon, hc, ih ht]

theorem splitOnceColon_eq_none_iff (s : Str) : splitOnceColon s = none ↔ ':' ∉ s := by
  induction s with
  | nil => simp [splitOnceColon]
  | cons c t ih =>
    by_cases hc : c = ':'
    · subst hc; simp [splitOnceColon]
    · rw [splitOnceColon]
      cases hsp : splitOnceColon t with
      | none => simp [hc, List.mem_cons, Ne.symm hc, ih.mp hsp]
      | some p =>
        have : ':' ∈ t := by
          by_contra hm
          rw [ih.mpr hm] at hsp
          cases hsp
        simp [hc, List.mem_cons, this]

/-!  ### Decimal rendering round-trips through unsigned parsing  -/

/-- Specification form of the decimal digits of `n`, most significant
first. -/
def digitsOf (n : Nat) : List Char :=
  if n < 10 then [digitChar n]
  else digitsOf (n / 10) ++ [digitChar (n % 10)]
decreasing_by exact Nat.div_lt_self (by omega) (by omega)

theorem char_toNat_ofNat {n : Nat} (h : n < 55296) : (Char.ofNat n).toNat = n := by
  simp only [Char.ofNat, dif_pos (Or.inl h : n.isValidChar), Char.ofNatAux, Char.toNat,
    UInt32.toNat, BitVec.toNat_ofNatLt]

theorem digitChar_toNat {d : Nat} (h : d < 10) : (digitChar d).toNat = 48 + d :=
  char_toNat_ofNat (by omega)

theorem natToCharsAux_eq (fuel : Nat) :
    ∀ n acc, n < fuel → natToCharsAux fuel n acc = digitsOf n ++ acc := by
  induction fuel with
  | zero => intro n acc h; omega
  | succ fuel ih =>
    intro n acc h
    by_cases h10 : n < 10
    · rw [natToCharsAux, if_pos h10, digitsOf, if_pos h10, Nat.mod_eq_of_lt h10]
      simp
    · rw [natToCharsAux, if_neg h10, digitsOf, if_neg h10,
        ih (n / 10) _ (by omega)]
      simp

theorem natToChars_eq (n : Nat) : natToChars n = digitsOf n := by
  simpa using natToCharsAux_eq (n + 1) n [] (by omega)

theorem digitsOf_ne_nil (n : Nat) : digitsOf n ≠ [] := by
  rw [digitsOf]
  split <;> simp

theorem digitsOf_all_digit (n : Nat) : ∀ c ∈ digitsOf n, 48 ≤ c.toNat ∧ c.toNat ≤ 57 := by
  induction n using Nat.strong_induction_on with
  | _ n ih =>
    intro c hc
    rw [digitsOf] at hc
    by_cases h10 : n < 10
    · rw [if_pos h10] at hc
      simp at hc
      subst hc
      rw [digitChar_toNat h10]
      omega
    · rw [if_neg h10] at hc
      rcases List.mem_append.mp hc with hm | hm
      · exact ih (n / 10) (Nat.div_lt_self (by omega) (by omega)) c hm
      · simp at hm
        subst hm
        rw [digitChar_toNat (Nat.mod_lt _ (by omega))]
        have := Nat.mod_lt n (y := 10) (by omega)
        omega

theorem digitsOf_foldl (n : Nat) :
    ∀ a, (digitsOf n).foldl (fun a c => a * 10 + (c.toNat - 48)) a =
      a * 10 ^ (digitsOf n).length + n := by
  induction n using Nat.strong_induction_on with
  | _ n ih =>
    intro a
    rw [digitsOf]
    by_cases h10 : n < 10
    · simp [if_pos h10, digitChar_toNat h10]
    · rw [if_neg h10, List.foldl_append, ih (n / 10) (Nat.div_lt_self (by omega) (by omega)) a]
      simp only [List.foldl_cons, List.foldl_nil, List.length_append, List.length_cons,
        List.length_nil]
      rw [digitChar_toNat (Nat.mod_lt _ (by omega))]
      have hd := Nat.div_add_mod n 10
      have := Nat.mod_lt n (y := 10) (by omega)
      ring_nf
      omega

theorem parseUnsigned_natToChars {bound n : Nat} (h : n < bound) :
    parseUnsigned bound (natToChars n) = some n := by
  rw [natToChars_eq]
  obtain ⟨c, t, hct⟩ : ∃ c t, digitsOf n = c :: t := by
    cases hd : digitsOf n with
    | nil => exact absurd hd (digitsOf_ne_nil n)
    | cons c t => exact ⟨c, t, rfl⟩
  have hcd : 48 ≤ c.toNat ∧ c.toNat ≤ 57 := digitsOf_all_digit n c (by rw [hct]; simp)
  have hplus : c ≠ '+' := by
    intro hc
    subst hc
    simp at hcd
  rw [parseUnsigned, hct]
  have hsp : stripPlus (c :: t) = c :: t := by simp [stripPlus, hplus]
  rw [hsp]
  have hall : (c :: t).all isDigitChar = true := by
    rw [← hct]
    exact List.all_eq_true.mpr fun x hx => by
      have := digitsOf_all_digit n x hx
      simp [isDigitChar]
      omega
  simp only [hall, List.isEmpty_cons, Bool.not_false, Bool.and_self, if_pos]
  rw [← hct]
  have := digitsOf_foldl n 0
  simp only [Nat.zero_mul, Nat.zero_add] at this
  simp [this, h]

/-!  ### UTF-8 encoding round-trips through strict decoding  -/

theorem char_isValid (c : Char) : c.toNat < 0xD800 ∨ (0xDFFF < c.toNat ∧ c.toNat < 0x110000) :=
  c.valid

set_option maxRecDepth 4000 in
theorem utf8Step_length {b : Nat} {bs : List Nat} {n : Nat} {bs2 : List Nat}
    (h : utf8Step b bs = some (n, bs2)) : bs2.length ≤ bs.length := by
  unfold utf8Step at h
  repeat' split at h
  all_goals try cases h
  all_goals try simp only [List.length_cons]
  all_goals omega

theorem utf8DecodeAux_fuel (fuel : Nat) : ∀ (g : Nat) (bs : List Nat),
    bs.length ≤ fuel → bs.length ≤ g → utf8DecodeAux fuel bs = utf8DecodeAux g bs := by
  induction fuel with
  | zero =>
    intro g bs h _
    have : bs = [] := List.length_eq_zero.mp (by omega)
    subst this
    cases g <;> rfl
  | succ fuel ih =>
    intro g bs h hg
    match bs with
    | [] => cases g <;> rfl
    | b :: bs =>
      simp only [List.length_cons] at h hg
      match g, hg with
      | g + 1, _ =>
        rw [utf8DecodeAux, utf8DecodeAux]
        cases hstep : utf8Step b bs with
        | none => rfl
        | some p =>
          obtain ⟨n, bs2⟩ := p
          have hlen := utf8Step_length hstep
          dsimp only
          rw [ih g bs2 (by omega) (by omega)]

theorem utf8DecodeAux_congr (fuel : Nat) (bs : List Nat) (h : bs.length ≤ fuel) :
    utf8DecodeAux fuel bs = utf8Decode bs :=
  utf8DecodeAux_fuel fuel bs.length bs h le_rfl

theorem utf8Decode_nil : utf8Decode [] = some [] := rfl

theorem utf8Decode_cons (b : Nat) (bs : List Nat) :
    utf8Decode (b :: bs) =
      match utf8Step b bs with
      | none => none
      | some (n, bs2) => (utf8Decode bs2).map (Char.ofNat n :: ·) := by
  rw [utf8Decode, List.length_cons, utf8DecodeAux]
  cases hstep : utf8Step b bs with
  | none => rfl
  | some p =>
    obtain ⟨n, bs2⟩ := p
    dsimp only
    rw [utf8DecodeAux_congr bs.length bs2 (utf8Step_length hstep)]

theorem utf8Decode_encodeChar (c : Char) (rest : List Nat) :
    utf8Decode (utf8EncodeChar c ++ rest) = (utf8Decode rest).map (c :: ·) := by
  have hv := char_isValid c
  have hofn : Char.ofNat c.toNat = c := Char.ofNat_toNat c
  simp only [utf8EncodeChar]
  by_cases h1 : c.toNat < 0x80
  · rw [if_pos h1]
    simp only [List.cons_append, List.nil_append, utf8Decode_cons]
    have hstep : utf8Step c.toNat rest = some (c.toNat, rest) := by
      unfold utf8Step
      rw [if_pos h1]
    rw [hstep]
    simp [hofn]
  · rw [if_neg h1]
    by_cases h2 : c.toNat < 0x800
    · rw [if_pos h2]
      simp only [List.cons_append, List.nil_append, utf8Decode_cons]
      have hstep : utf8Step (0xC0 + c.toNat / 0x40) ((0x80 + c.toNat % 0x40) :: rest) =
          some (c.toNat, rest) := by
        unfold utf8Step
        rw [if_neg (by omega), if_neg (by omega : ¬(0xC0 + c.toNat / 0x40 < 0xC2)),
          if_pos (by omega : 0xC0 + c.toNat / 0x40 < 0xE0)]
        have hcont : isContByte (0x80 + c.toNat % 0x40) = true := by
          simp only [isContByte, Bool.and_eq_true, decide_eq_true_eq]
          omega
        dsimp only
        rw [if_pos hcont]
        have hval : (0xC0 + c.toNat / 0x40 - 0xC0) * 0x40 + (0x80 + c.toNat % 0x40 - 0x80) =
            c.toNat := by omega
        rw [hval]
      rw [hstep]
      simp [hofn]
    · rw [if_neg h2]
      by_cases h3 : c.toNat < 0x10000
      · rw [if_pos h3]
        simp only [List.cons_append, List.nil_append, utf8Decode_cons]
        have hstep : utf8Step (0xE0 + c.toNat / 0x1000)
            ((0x80 + c.toNat / 0x40 % 0x40) :: (0x80 + c.toNat % 0x40) :: rest) =
            some (c.toNat, rest) := by
          unfold utf8Step
          rw [if_neg (by omega), if_neg (by omega : ¬(0xE0 + c.toNat / 0x1000 < 0xC2)),
            if_neg (by omega : ¬(0xE0 + c.toNat / 0x1000 < 0xE0)),
            if_pos (by omega : 0xE0 + c.toNat / 0x1000 < 0xF0)]
          have hcont : (isContByte (0x80 + c.toNat / 0x40 % 0x40) &&
              isContByte (0x80 + c.toNat % 0x40)) = true := by
            simp only [isContByte, Bool.and_eq_true, decide_eq_true_eq]
            omega
          dsimp only
          rw [if_pos hcont]
          have hcond : (decide (0x800 ≤ (0xE0 + c.toNat / 0x1000 - 0xE0) * 0x1000 +
                (0x80 + c.toNat / 0x40 % 0x40 - 0x80) * 0x40 + (0x80 + c.toNat % 0x40 - 0x80)) &&
              (decide ((0xE0 + c.toNat / 0x1000 - 0xE0) * 0x1000 +
                (0x80 + c.toNat / 0x40 % 0x40 - 0x80) * 0x40 + (0x80 + c.toNat % 0x40 - 0x80) <
                  0xD800) ||
               decide (0xDFFF < (0xE0 + c.toNat / 0x1000 - 0xE0) * 0x1000 +
                (0x80 + c.toNat / 0x40 % 0x40 - 0x80) * 0x40 + (0x80 + c.toNat % 0x40 - 0x80)))) =
              true := by
            simp only [Bool.and_eq_true, decide_eq_true_eq, Bool.or_eq_true]
            omega
          rw [if_pos hcond]
          have hval : (0xE0 + c.toNat / 0x1000 - 0xE0) * 0x1000 +
              (0x80 + c.toNat / 0x40 % 0x40 - 0x80) * 0x40 + (0x80 + c.toNat % 0x40 - 0x80) =
              c.toNat := by omega
          rw [hval]
        rw [hstep]
        simp [hofn]
      · rw [if_neg h3]
        have h4 : c.toNat < 0x110000 := by omega
        simp only [List.cons_append, List.nil_append, utf8Decode_cons]
        have hstep : utf8Step (0xF0 + c.toNat / 0x40000)
            ((0x80 + c.toNat / 0x1000 % 0x40) :: (0x80 + c.toNat / 0x40 % 0x40) ::
              (0x80 + c.toNat % 0x40) :: rest) = some (c.toNat, rest) := by
          unfold utf8Step
          rw [if_neg (by omega), if_neg (by omega : ¬(0xF0 + c.toNat / 0x40000 < 0xC2)),
            if_neg (by omega : ¬(0xF0 + c.toNat / 0x40000 < 0xE0)),
            if_neg (by omega : ¬(0xF0 + c.toNat / 0x40000 < 0xF0))]
          have hcont : (isContByte (0x80 + c.toNat / 0x1000 % 0x40) &&
              isContByte (0x80 + c.toNat / 0x40 % 0x40) &&
              isContByte (0x80 + c.toNat % 0x40)) = true := by
            simp only [isContByte, Bool.and_eq_true, decide_eq_true_eq]
            omega
          dsimp only
          rw [if_pos hcont]
          have hcond : (decide (0x10000 ≤ (0xF0 + c.toNat / 0x40000 - 0xF0) * 0x40000 +
                (0x80 + c.toNat / 0x1000 % 0x40 - 0x80) * 0x1000 +
                (0x80 + c.toNat / 0x40 % 0x40 - 0x80) * 0x40 + (0x80 + c.toNat % 0x40 - 0x80)) &&
              decide ((0xF0 + c.toNat / 0x40000 - 0xF0) * 0x40000 +
                (0x80 + c.toNat / 0x1000 % 0x40 - 0x80) * 0x1000 +
                (0x80 + c.toNat / 0x40 % 0x40 - 0x80) * 0x40 + (0x80 + c.toNat % 0x40 - 0x80) <
                  0x110000)) = true := by
            simp only [Bool.and_eq_true, decide_eq_true_eq]
            omega
          rw [if_pos hcond]
          have hval : (0xF0 + c.toNat / 0x40000 - 0xF0) * 0x40000 +
              (0x80 + c.toNat / 0x1000 % 0x40 - 0x80) * 0x1000 +
              (0x80 + c.toNat / 0x40 % 0x40 - 0x80) * 0x40 +
              (0x80 + c.toNat % 0x40 - 0x80) = c.toNat := by omega
          rw [hval]
        rw [hstep]
        simp [hofn]

theorem utf8Decode_encode_append (s : Str) (rest : List Nat) :
    utf8Decode (utf8Encode s ++ rest) = (utf8Decode rest).map (s ++ ·) := by
  induction s with
  | nil =>
    simp only [utf8Encode, List.nil_append]
    cases utf8Decode rest <;> simp
  | cons c t ih =>
    rw [utf8Encode, List.append_assoc, utf8Decode_encodeChar c _, ih]
    cases utf8Decode rest <;> simp

theorem utf8Decode_encode (s : Str) : utf8Decode (utf8Encode s) = some s := by
  have h := utf8Decode_encode_append s []
  rw [List.append_nil, utf8Decode_nil] at h
  simpa using h

theorem toNat_eq_ten_iff (c : Char) : c.toNat = 10 ↔ c = '\n' := by
  constructor
  · intro h
    have := Char.ofNat_toNat c
    rw [h] at this
    exact this.symm
  · intro h
    subst h
    rfl

theorem mem_utf8EncodeChar {x : Nat} {c : Char} (h : x ∈ utf8EncodeChar c) :
    x = c.toNat ∨ 0x80 ≤ x := by
  simp only [utf8EncodeChar] at h
  split at h
  · left
    simpa using h
  · right
    split at h
    · rcases List.mem_cons.mp h with h | h
      · omega
      · simp at h
        omega
    · split at h
      · rcases List.mem_cons.mp h with h | h
        · omega
        · rcases List.mem_cons.mp h with h | h
          · omega
          · simp at h
            omega
      · rcases List.mem_cons.mp h with h | h
        · omega
        · rcases List.mem_cons.mp h with h | h
          · omega
          · rcases List.mem_cons.mp h with h | h
            · omega
            · simp at h
              omega

theorem newline_not_mem_utf8Encode (s : Str) (h : '\n' ∉ s) : 10 ∉ utf8Encode s := by
  induction s with
  | nil => simp [utf8Encode]
  | cons c t ih =>
    rw [utf8Encode]
    intro hm
    rcases List.mem_append.mp hm with hm | hm
    · have hc : c ≠ '\n' := fun hc => h (hc ▸ List.mem_cons_self c t)
      have hcn : c.toNat ≠ 10 := fun hn => hc ((toNat_eq_ten_iff c).mp hn)
      rcases mem_utf8EncodeChar hm with h10 | h10 <;> omega
    · exact ih (fun hm2 => h (List.mem_cons_of_mem c hm2)) hm

/-!  ### Lemmas about the byte-level line reader  -/

theorem readLine_append (bs rest : List Nat) (h : 10 ∉ bs) :
    readLine (bs ++ 10 :: rest) = (bs, rest, false) := by
  induction bs with
  | nil => simp [readLine]
  | cons b t ih =>
    have hb : b ≠ 10 := fun hb => h (hb ▸ List.mem_cons_self b t)
    have ht : 10 ∉ t := fun hm => h (List.mem_cons_of_mem b hm)
    simp [readLine, hb, ih ht]

theorem readLine_length (input : List Nat) :
    (readLine input).1.length + (readLine input).2.1.length +
      (if (readLine input).2.2 then 0 else 1) = input.length := by
  induction input with
  | nil => simp [readLine]
  | cons b t ih =>
    by_cases hb : b = 10
    · simp [readLine, hb]
    · simp only [readLine, if_neg hb, List.length_cons]
      omega

/-!  ### Fuel-independence of the decoder loop  -/

theorem kvInsert_ne_nil (m : KV) (k v : Str) : kvInsert m k v ≠ [] := by
  unfold kvInsert
  split
  · intro hm
    rename_i hany
    rw [List.map_eq_nil_iff.mp hm] at hany
    simp at hany
  · simp

theorem utf8Decode_ne_nil {lb : List Nat} {line : Str} (h : utf8Decode lb = some line)
    (hne : line ≠ []) : lb ≠ [] := by
  intro hlb
  subst hlb
  rw [utf8Decode_nil] at h
  cases h
  exact hne rfl

theorem from_read_aux_fuel (f : Nat) : ∀ (g : Nat) (kv : KV) (hs : Bool) (input : List Nat),
    input.length < f → input.length < g →
    from_read_aux f kv hs input = from_read_aux g kv hs input := by
  induction f with
  | zero => omega
  | succ f ih =>
    intro g kv hs input hf hg
    match g, hg with
    | g + 1, _ =>
      rw [from_read_aux, from_read_aux]
      rcases hr : readLine input with ⟨lb, rest2, eof⟩
      have hlen := readLine_length input
      rw [hr] at hlen
      simp only at hlen
      simp only [hr]
      cases hd : utf8Decode lb with
      | none => rfl
      | some line =>
        simp only
        by_cases hc : startsWithHash (rustTrim line) = true
        · rw [if_pos hc, if_pos hc]
          have hlb : lb ≠ [] := by
            refine utf8Decode_ne_nil hd fun hl => ?_
            subst hl
            simp [rustTrim, trimLeft, trimRight, startsWithHash] at hc
          have : 0 < lb.length := List.length_pos.mpr hlb
          exact ih g kv _ rest2 (by omega) (by omega)
        · rw [if_neg hc, if_neg hc]
          by_cases ht : (rustTrim line).isEmpty = true
          · rw [if_pos ht, if_pos ht]
            by_cases hkv : (!kv.isEmpty) = true
            · rw [if_pos hkv, if_pos hkv]
            · rw [if_neg hkv, if_neg hkv]
              by_cases he : eof = true
              · rw [if_pos he, if_pos he]
              · rw [if_neg he, if_neg he]
                have he2 : eof = false := by
                  revert he; cases eof <;> simp
                rw [he2] at hlen
                simp at hlen
                exact ih g kv _ rest2 (by omega) (by omega)
          · rw [if_neg ht, if_neg ht]
            cases hsp : splitOnceColon (rustTrim line) with
            | none => rfl
            | some p =>
              obtain ⟨k, v⟩ := p
              simp only
              by_cases he : (eof && !(kvInsert kv (rustTrim k) (rustTrim v)).isEmpty) = true
              · rw [if_pos he, if_pos he]
              · rw [if_neg he, if_neg he]
                have he2 : eof = false := by
                  have hne := kvInsert_ne_nil kv (rustTrim k) (rustTrim v)
                  revert he
                  cases eof
                  · simp
                  · cases hkvi : (kvInsert kv (rustTrim k) (rustTrim v)).isEmpty
                    · simp [hkvi]
                    · exact absurd (List.isEmpty_iff.mp hkvi) hne
                rw [he2] at hlen
                simp at hlen
                exact ih g _ _ rest2 (by omega) (by omega)

/-- `from_read_aux` with its canonical fuel: the form all step lemmas
are stated in.  `from_read input = from_readF [] false input`. -/
def from_readF (kv : KV) (hs : Bool) (input : List Nat) :
    Except TextRecordError YPBankTextRecord × List Nat :=
  from_read_aux (input.length + 1) kv hs input

theorem from_read_eq_from_readF (input : List Nat) :
    from_read input = from_readF [] false input := rfl

/-!  ### One decoder iteration per line  -/

theorem from_readF_nil (kv : KV) (hs : Bool) :
    from_readF kv hs [] =
      if kv.isEmpty then
        if hs then (.error .EmptyLinesAtEndOfFile, []) else (.error .SourceIsEmpty, [])
      else (parse_transaction kv, []) := by
  cases kv <;> cases hs <;> rfl

theorem from_readF_line (l : Str) (rest : List Nat) (kv : KV) (hs : Bool) (hnl : '\n' ∉ l) :
    from_readF kv hs (writelnBytes l ++ rest) =
      if startsWithHash (rustTrim l) then from_readF kv true rest
      else if (rustTrim l).isEmpty then
        if !kv.isEmpty then (parse_transaction kv, rest)
        else from_readF kv true rest
      else
        match splitOnceColon (rustTrim l) with
        | none => (.error .MissingColonAfterKey, rest)
        | some (k, v) => from_readF (kvInsert kv (rustTrim k) (rustTrim v)) true rest := by
  have hb : writelnBytes l ++ rest = utf8Encode l ++ 10 :: rest := by
    rw [writelnBytes, List.append_assoc]
    rfl
  have hmem : 10 ∉ utf8Encode l := newline_not_mem_utf8Encode l hnl
  have hr := readLine_append (utf8Encode l) rest hmem
  have hne : ((utf8Encode l ++ 10 :: rest).isEmpty) = false := by
    cases henc : utf8Encode l <;> simp [henc]
  rw [hb]
  show from_read_aux ((utf8Encode l ++ 10 :: rest).length + 1) kv hs (utf8Encode l ++ 10 :: rest)
      = _
  have hlen : (utf8Encode l ++ 10 :: rest).length = (utf8Encode l).length + 1 + rest.length := by
    simp
    omega
  rw [from_read_aux, hr]
  simp only [hne, Bool.not_false, Bool.or_true, utf8Decode_encode l]
  have hfuel : rest.length < (utf8Encode l ++ 10 :: rest).length := by
    rw [hlen]
    omega
  by_cases hc : startsWithHash (rustTrim l) = true
  · rw [if_pos hc, if_pos hc]
    exact from_read_aux_fuel _ _ kv true rest hfuel (by omega)
  · rw [if_neg hc, if_neg hc]
    by_cases ht : (rustTrim l).isEmpty = true
    · rw [if_pos ht, if_pos ht]
      by_cases hkv : (!kv.isEmpty) = true
      · rw [if_pos hkv, if_pos hkv]
      · rw [if_neg hkv, if_neg hkv]
        simp only [Bool.false_eq_true, if_false]
        exact from_read_aux_fuel _ _ kv true rest hfuel (by omega)
    · rw [if_neg ht, if_neg ht]
      cases hsp : splitOnceColon (rustTrim l) with
      | none => rfl
      | some p =>
        obtain ⟨k, v⟩ := p
        simp only [Bool.false_and, Bool.false_eq_true, if_false]
        exact from_read_aux_fuel _ _ _ true rest hfuel (by omega)

/-- The byte stream of a list of newline-terminated lines. -/
def linesBytes : List Str → List Nat
  | [] => []
  | l :: ls => writelnBytes l ++ linesBytes ls

/-- A skippable line: a comment or a (trimmed-)blank line, with no
embedded newline. -/
def PreLine (l : Str) : Prop :=
  '\n' ∉ l ∧ (startsWithHash (rustTrim l) = true ∨ rustTrim l = [])

/-- A line inside a block: non-blank, and either a comment or a
key/value line (it contains a `:`), with no embedded newline. -/
def BlockLine (l : Str) : Prop :=
  '\n' ∉ l ∧ rustTrim l ≠ [] ∧
    (startsWithHash (rustTrim l) = true ∨ (splitOnceColon (rustTrim l)).isSome = true)

/-- The effect of one block line on the accumulated mapping: comments
contribute nothing, key/value lines insert their trimmed pair. -/
def lineInsert (m : KV) (l : Str) : KV :=
  if startsWithHash (rustTrim l) then m
  else
    match splitOnceColon (rustTrim l) with
    | some (k, v) => kvInsert m (rustTrim k) (rustTrim v)
    | none => m

theorem from_readF_pre (ls : List Str) : ∀ (hs : Bool) (rest : List Nat),
    (∀ l ∈ ls, PreLine l) →
    from_readF [] hs (linesBytes ls ++ rest) = from_readF [] (hs || !ls.isEmpty) rest := by
  induction ls with
  | nil =>
    intro hs rest _
    simp [linesBytes]
  | cons l ls ih =>
    intro hs rest h
    obtain ⟨hnl, hl⟩ := h l (by simp)
    rw [linesBytes, List.append_assoc, from_readF_line _ _ _ _ hnl]
    have step : ∀ hs2 : Bool, from_readF [] hs2 (linesBytes ls ++ rest) =
        from_readF [] (hs2 || !ls.isEmpty) rest :=
      fun hs2 => ih hs2 rest (fun x hx => h x (by simp [hx]))
    rcases hl with hl | hl
    · rw [if_pos hl, step true]
      simp
    · rw [if_neg (by simp [hl, startsWithHash]), if_pos (by simp [hl])]
      simp only [List.isEmpty_nil, Bool.not_true, Bool.false_eq_true, if_false]
      rw [step true]
      simp

theorem from_readF_block (ls : List Str) : ∀ (kv : KV) (hs : Bool) (rest : List Nat),
    (∀ l ∈ ls, BlockLine l) →
    from_readF kv hs (linesBytes ls ++ rest) =
      from_readF (ls.foldl lineInsert kv) (hs || !ls.isEmpty) rest := by
  induction ls with
  | nil =>
    intro kv hs rest _
    simp [linesBytes]
  | cons l ls ih =>
    intro kv hs rest h
    obtain ⟨hnl, hne, hl⟩ := h l (by simp)
    rw [linesBytes, List.append_assoc, from_readF_line _ _ _ _ hnl]
    have step : ∀ (kv2 : KV) (hs2 : Bool), from_readF kv2 hs2 (linesBytes ls ++ rest) =
        from_readF (ls.foldl lineInsert kv2) (hs2 || !ls.isEmpty) rest :=
      fun kv2 hs2 => ih kv2 hs2 rest (fun x hx => h x (by simp [hx]))
    have hfold : (l :: ls).foldl lineInsert kv = ls.foldl lineInsert (lineInsert kv l) := rfl
    by_cases hc : startsWithHash (rustTrim l) = true
    · rw [if_pos hc, step kv true, hfold, lineInsert, if_pos hc]
      simp
    · have hl2 : (splitOnceColon (rustTrim l)).isSome = true := by
        rcases hl with hl | hl
        · exact absurd hl hc
        · exact hl
      rw [if_neg hc, if_neg (by simp [List.isEmpty_iff, hne])]
      cases hsp : splitOnceColon (rustTrim l) with
      | none => rw [hsp] at hl2; cases hl2
      | some p =>
        obtain ⟨k, v⟩ := p
        dsimp only
        rw [step _ true, hfold, lineInsert, if_neg hc, hsp]
        simp

theorem from_readF_final (l : Str) (rest : List Nat) (kv : KV) (hs : Bool) (hnl : '\n' ∉ l)
    (hb : rustTrim l = []) (hkv : kv ≠ []) :
    from_readF kv hs (writelnBytes l ++ rest) = (parse_transaction kv, rest) := by
  rw [from_readF_line _ _ _ _ hnl, if_neg (by simp [hb, startsWithHash]), if_pos (by simp [hb]),
    if_pos (by simp [List.isEmpty_iff, hkv])]

/-- `n` successive `from_read` calls on a stream: the list of results
and the remaining stream. -/
def from_readN : Nat → List Nat →
    List (Except TextRecordError YPBankTextRecord) × List Nat
  | 0, input => ([], input)
  | n + 1, input =>
    ((from_read input).1 :: (from_readN n (from_read input).2).1,
      (from_readN n (from_read input).2).2)

/-!  ### The key/value mapping: uniqueness and last-write-wins  -/

theorem kvLookup_cons_self (k v : Str) (m : KV) : kvLookup ((k, v) :: m) k = some v := by
  simp [kvLookup]

theorem kvLookup_cons_ne {k' k : Str} (v : Str) (m : KV) (h : k' ≠ k) :
    kvLookup ((k', v) :: m) k = kvLookup m k := by
  simp [kvLookup, h]

theorem kvLookup_eq_none_iff (m : KV) (k : Str) :
    kvLookup m k = none ↔ (m.any fun p => p.1 = k) = false := by
  induction m with
  | nil => simp [kvLookup]
  | cons p t ih =>
    obtain ⟨k', v⟩ := p
    by_cases h : k' = k
    · subst h
      simp [kvLookup]
    · rw [kvLookup_cons_ne v t h, ih]
      simp [h]

theorem kvLookup_map_overwrite_self (m : KV) (k' v' : Str) :
    kvLookup (m.map fun p => if p.1 = k' then (k', v') else p) k' =
      if (m.any fun p => p.1 = k') then some v' else none := by
  induction m with
  | nil => simp [kvLookup]
  | cons p t ih =>
    obtain ⟨a, b⟩ := p
    simp only [List.map_cons, List.any_cons]
    by_cases h : a = k'
    · rw [if_pos (show (a, b).1 = k' from h), kvLookup_cons_self]
      simp [h]
    · rw [if_neg (show ¬((a, b).1 = k') from h), kvLookup_cons_ne b _ h, ih]
      simp only [decide_eq_false h, Bool.false_or]

theorem kvLookup_map_overwrite_ne (m : KV) (k' v' k : Str) (h : k' ≠ k) :
    kvLookup (m.map fun p => if p.1 = k' then (k', v') else p) k = kvLookup m k := by
  induction m with
  | nil => simp [kvLookup]
  | cons p t ih =>
    obtain ⟨a, b⟩ := p
    simp only [List.map_cons]
    by_cases ha : a = k'
    · rw [if_pos (show (a, b).1 = k' from ha)]
      rw [kvLookup_cons_ne v' _ h, kvLookup_cons_ne b _ (fun hak => h (ha ▸ hak)), ih]
    · rw [if_neg (show ¬((a, b).1 = k') from ha)]
      by_cases hk : a = k
      · subst hk
        rw [kvLookup_cons_self, kvLookup_cons_self]
      · rw [kvLookup_cons_ne b _ hk, kvLookup_cons_ne b _ hk, ih]

theorem kvLookup_append_single (m : KV) (k' v' k : Str) :
    kvLookup (m ++ [(k', v')]) k =
      match kvLookup m k with
      | some b => some b
      | none => if k' = k then some v' else none := by
  induction m with
  | nil => simp [kvLookup]
  | cons p t ih =>
    obtain ⟨a, b⟩ := p
    by_cases hk : a = k
    · subst hk
      rw [List.cons_append, kvLookup_cons_self, kvLookup_cons_self]
    · rw [List.cons_append, kvLookup_cons_ne b _ hk, kvLookup_cons_ne b _ hk, ih]

theorem kvLookup_kvInsert (m : KV) (k' v' k : Str) :
    kvLookup (kvInsert m k' v') k = if k' = k then some v' else kvLookup m k := by
  unfold kvInsert
  by_cases hany : (m.any fun p => p.1 = k') = true
  · rw [if_pos hany]
    by_cases h : k' = k
    · subst h
      rw [kvLookup_map_overwrite_self, if_pos hany, if_pos rfl]
    · rw [kvLookup_map_overwrite_ne m k' v' k h, if_neg h]
  · rw [if_neg hany]
    rw [kvLookup_append_single]
    by_cases h : k' = k
    · subst h
      have hfalse : (m.any fun p => p.1 = k') = false := by
        revert hany
        cases m.any fun p => p.1 = k' <;> simp
      rw [(kvLookup_eq_none_iff m k').mpr hfalse]
    · cases hm : kvLookup m k <;> simp [h]

/-- The keys of the accumulated mapping, in insertion order. -/
def kvKeys (m : KV) : List Str := m.map Prod.fst

theorem kvKeys_kvInsert_of_mem (m : KV) (k v : Str) (h : (m.any fun p => p.1 = k) = true) :
    kvKeys (kvInsert m k v) = kvKeys m := by
  rw [kvInsert, if_pos h, kvKeys, kvKeys, List.map_map]
  refine List.map_congr_left fun p _ => ?_
  by_cases hp : p.1 = k
  · simp [hp]
  · simp [hp]

theorem kvKeys_kvInsert_nodup (m : KV) (k v : Str) (h : (kvKeys m).Nodup) :
    (kvKeys (kvInsert m k v)).Nodup := by
  by_cases hany : (m.any fun p => p.1 = k) = true
  · rw [kvKeys_kvInsert_of_mem m k v hany]
    exact h
  · rw [kvInsert, if_neg hany, kvKeys, List.map_append]
    have hnot : k ∉ m.map Prod.fst := by
      intro hm
      obtain ⟨p, hp, hpk⟩ := List.mem_map.mp hm
      have : (m.any fun p => p.1 = k) = true := List.any_eq_true.mpr ⟨p, hp, by simp [hpk]⟩
      exact hany this
    simp only [List.map_cons, List.map_nil]
    rw [List.nodup_append]
    refine ⟨h, List.nodup_singleton k, ?_⟩
    intro a ha hb
    have hak : a = k := by simpa using hb
    subst hak
    exact hnot ha

theorem foldl_kvInsert_nodup (ps : List (Str × Str)) : ∀ m : KV, (kvKeys m).Nodup →
    (kvKeys (ps.foldl (fun m p => kvInsert m p.1 p.2) m)).Nodup := by
  induction ps with
  | nil => intro m h; exact h
  | cons p t ih =>
    intro m h
    exact ih (kvInsert m p.1 p.2) (kvKeys_kvInsert_nodup m p.1 p.2 h)

theorem foldl_kvInsert_lookup (ps : List (Str × Str)) : ∀ (m : KV) (k : Str),
    kvLookup (ps.foldl (fun m p => kvInsert m p.1 p.2) m) k =
      match (ps.filter fun p => p.1 = k).getLast? with
      | some q => some q.2
      | none => kvLookup m k := by
  induction ps with
  | nil => intro m k; simp
  | cons p t ih =>
    intro m k
    rw [List.foldl_cons, ih (kvInsert m p.1 p.2) k, kvLookup_kvInsert]
    by_cases hp : p.1 = k
    · rw [List.filter_cons_of_pos (by simp [hp])]
      cases hf : t.filter fun q => q.1 = k with
      | nil => simp [hf, hp]
      | cons q u =>
        obtain ⟨r, hr⟩ : ∃ r, (q :: u).getLast? = some r := by
          cases hgl : (q :: u).getLast? with
          | none => exact absurd (List.getLast?_eq_none_iff.mp hgl) (by simp)
          | some r => exact ⟨r, rfl⟩
        simp [hf, List.getLast?_cons_cons, hp, hr]
    · rw [List.filter_cons_of_neg (by simp [hp])]
      cases hf : t.filter fun q => q.1 = k with
      | nil => simp [hf, hp]
      | cons q u => simp [hf, hp]

/-!  ### Canonical `KEY: value` lines  -/

theorem isRustWhitespace_false_of_range {c : Char} (h1 : 32 < c.toNat) (h2 : c.toNat < 0x85) :
    isRustWhitespace c = false := by
  simp only [isRustWhitespace, Bool.or_eq_false_iff, Bool.and_eq_false_iff,
    decide_eq_false_iff_not]
  omega

theorem not_mem_newline_of_not_ws (l : Str) (h : ∀ c ∈ l, isRustWhitespace c = false) :
    '\n' ∉ l := by
  intro hm
  have hfalse := h _ hm
  have htrue : isRustWhitespace '\n' = true := by decide
  rw [htrue] at hfalse
  cases hfalse

theorem natToChars_not_ws (n : Nat) : ∀ c ∈ natToChars n, isRustWhitespace c = false := by
  intro c hc
  rw [natToChars_eq] at hc
  have := digitsOf_all_digit n c hc
  exact isRustWhitespace_false_of_range (by omega) (by omega)

theorem rustTrim_natToChars (n : Nat) : rustTrim (natToChars n) = natToChars n :=
  rustTrim_of_all_not_ws _ (natToChars_not_ws n)

theorem newline_not_mem_natToChars (n : Nat) : '\n' ∉ natToChars n :=
  not_mem_newline_of_not_ws _ (natToChars_not_ws n)

theorem TransactionType.fromWire_toWire_ty (t : TransactionType) :
    TransactionType.fromWire t.toWire = some t := by
  cases t <;> rfl

theorem TransactionStatus.fromWire_toWire_st (s : TransactionStatus) :
    TransactionStatus.fromWire s.toWire = some s := by
  cases s <;> rfl

theorem TransactionType.toWire_ty_not_ws (t : TransactionType) :
    ∀ c ∈ t.toWire, isRustWhitespace c = false := by
  cases t <;> decide

theorem TransactionStatus.toWire_st_not_ws (s : TransactionStatus) :
    ∀ c ∈ s.toWire, isRustWhitespace c = false := by
  cases s <;> decide

theorem getLast_append_right {l l' : Str} (h : l' ≠ []) (h2 : l ++ l' ≠ []) :
    (l ++ l').getLast h2 = l'.getLast h := by
  rw [List.getLast_append _]
  simp [List.isEmpty_iff, h]

theorem trimRight_append_ws {c : Char} (l : Str) (h : isRustWhitespace c = true) :
    trimRight (l ++ [c]) = trimRight l := by
  simp [trimRight, List.dropWhile_cons, h]

/-- Splitting and trimming a canonical `KEY: value` line recovers the
key and the value. -/
theorem rustTrim_keyline (key value : Str) (hne : key ≠ [])
    (hkey : ∀ c ∈ key, isRustWhitespace c = false)
    (hval : rustTrim value = value) :
    (value = [] ∧ rustTrim (key ++ ':' :: ' ' :: value) = key ++ [':']) ∨
    (value ≠ [] ∧ rustTrim (key ++ ':' :: ' ' :: value) = key ++ ':' :: ' ' :: value) := by
  obtain ⟨c, k', hk⟩ : ∃ c k', key = c :: k' := by
    cases key with
    | nil => exact absurd rfl hne
    | cons c k' => exact ⟨c, k', rfl⟩
  by_cases hv : value = []
  · left
    refine ⟨hv, ?_⟩
    subst hv
    have h1 : key ++ ':' :: ' ' :: [] = (key ++ [':']) ++ [' '] := by simp
    rw [h1, rustTrim]
    have h2 : trimLeft ((key ++ [':']) ++ [' ']) = (key ++ [':']) ++ [' '] := by
      rw [hk]
      exact trimLeft_cons_of_not_ws _ (hkey c (by rw [hk]; simp))
    rw [h2, trimRight_append_ws _ (by decide),
      trimRight_append_of_not_ws _ (by decide : isRustWhitespace ':' = false)]
  · right
    refine ⟨hv, ?_⟩
    rw [hk]
    refine rustTrim_eq_self_of _ (hkey c (by rw [hk]; simp)) ?_
    have hform : (c :: (k' ++ ':' :: ' ' :: value)) = (c :: k' ++ [':', ' ']) ++ value := by
      simp
    have h1 : (c :: (k' ++ ':' :: ' ' :: value)).getLast? = value.getLast? := by
      rw [hform]
      exact List.getLast?_append_of_ne_nil _ hv
    rw [List.getLast?_eq_getLast _ (by simp), List.getLast?_eq_getLast _ hv] at h1
    have h2 := Option.some.inj h1
    exact h2.symm ▸ getLast_not_ws_of_rustTrim_eq_self value hval hv

theorem splitOnceColon_keyline (key tail2 : Str) (hkey : ∀ c ∈ key, c ≠ ':') :
    splitOnceColon (key ++ ':' :: tail2) = some (key, tail2) :=
  splitOnceColon_append key tail2 (fun hm => hkey ':' hm rfl)

/-- Processing a canonical `KEY: value` line inserts exactly the pair
`(key, value)` into the accumulated mapping. -/
theorem lineInsert_canonical (m : KV) (key value : Str) (hne : key ≠ [])
    (hkey : ∀ c ∈ key, isRustWhitespace c = false ∧ c ≠ ':')
    (hhash : startsWithHash key = false)
    (hval : rustTrim value = value) :
    lineInsert m (key ++ ':' :: ' ' :: value) = kvInsert m key value := by
  have hkey1 : ∀ c ∈ key, isRustWhitespace c = false := fun c hc => (hkey c hc).1
  have hkey2 : ∀ c ∈ key, c ≠ ':' := fun c hc => (hkey c hc).2
  have htrimkey : rustTrim key = key := rustTrim_of_all_not_ws key hkey1
  obtain ⟨c, k', hk⟩ : ∃ c k', key = c :: k' := by
    cases key with
    | nil => exact absurd rfl hne
    | cons c k' => exact ⟨c, k', rfl⟩
  have hhashc : (c = '#') = False := by
    rw [hk, startsWithHash] at hhash
    simp only [decide_eq_false_iff_not] at hhash
    simp [hhash]
  rcases rustTrim_keyline key value hne hkey1 hval with ⟨hv, htrim⟩ | ⟨hv, htrim⟩
  · subst hv
    rw [lineInsert, htrim]
    have hhash2 : startsWithHash (key ++ [':']) = false := by
      rw [hk, List.cons_append, startsWithHash]
      simp [hhashc]
    rw [if_neg (by simp [hhash2]),
      show key ++ [':'] = key ++ ':' :: ([] : Str) from by simp,
      splitOnceColon_keyline key [] hkey2]
    dsimp only
    rw [htrimkey]
    rfl
  · rw [lineInsert, htrim]
    have hhash2 : startsWithHash (key ++ ':' :: ' ' :: value) = false := by
      rw [hk, List.cons_append, startsWithHash]
      simp [hhashc]
    rw [if_neg (by simp [hhash2]), splitOnceColon_keyline key (' ' :: value) hkey2]
    dsimp only
    rw [htrimkey, rustTrim_space_cons value hval]

/-- A canonical `KEY: value` line is a block line. -/
theorem blockLine_canonical (key value : Str) (hne : key ≠ [])
    (hkey : ∀ c ∈ key, isRustWhitespace c = false ∧ c ≠ ':')
    (hval : rustTrim value = value) (hvnl : '\n' ∉ value) :
    BlockLine (key ++ ':' :: ' ' :: value) := by
  have hkey1 : ∀ c ∈ key, isRustWhitespace c = false := fun c hc => (hkey c hc).1
  refine ⟨?_, ?_, ?_⟩
  · intro hm
    rcases List.mem_append.mp hm with hm | hm
    · exact absurd (hkey1 _ hm) (by decide)
    · rcases List.mem_cons.mp hm with hm | hm
      · cases hm
      · rcases List.mem_cons.mp hm with hm | hm
        · cases hm
        · exact hvnl hm
  · rcases rustTrim_keyline key value hne hkey1 hval with ⟨_, htrim⟩ | ⟨_, htrim⟩ <;>
      rw [htrim] <;> simp [hne]
  · right
    have hkey2 : ∀ c ∈ key, c ≠ ':' := fun c hc => (hkey c hc).2
    rcases rustTrim_keyline key value hne hkey1 hval with ⟨hv, htrim⟩ | ⟨hv, htrim⟩
    · rw [htrim, show key ++ [':'] = key ++ ':' :: ([] : Str) from by simp,
        splitOnceColon_keyline key [] hkey2]
      rfl
    · rw [htrim, splitOnceColon_keyline key (' ' :: value) hkey2]
      rfl

/-- `parse_transaction` on the canonical eight-key mapping, when every
value coerces. -/
theorem parse_transaction_canonical {v1 v2 v3 v4 v5 v6 v7 : Str} {n1 n3 n4 n5 n6 : Nat}
    {ty : TransactionType} {st : TransactionStatus} (v8 : Str)
    (a1 : parseU32 v1 = some n1) (a2 : TransactionType.fromWire v2 = some ty)
    (a3 : parseU32 v3 = some n3) (a4 : parseU32 v4 = some n4)
    (a5 : parseU64 v5 = some n5) (a6 : parseU64 v6 = some n6)
    (a7 : TransactionStatus.fromWire v7 = some st) :
    parse_transaction [(['T', 'X', '_', 'I', 'D'], v1),
      (['T', 'X', '_', 'T', 'Y', 'P', 'E'], v2),
      (['F', 'R', 'O', 'M', '_', 'U', 'S', 'E', 'R', '_', 'I', 'D'], v3),
      (['T', 'O', '_', 'U', 'S', 'E', 'R', '_', 'I', 'D'], v4),
      (['A', 'M', 'O', 'U', 'N', 'T'], v5),
      (['T', 'I', 'M', 'E', 'S', 'T', 'A', 'M', 'P'], v6),
      (['S', 'T', 'A', 'T', 'U', 'S'], v7),
      (['D', 'E', 'S', 'C', 'R', 'I', 'P', 'T', 'I', 'O', 'N'], v8)] =
      .ok ⟨n1, ty, n3, n4, n5, n6, st, v8⟩ := by
  have hb : parse_transaction [(['T', 'X', '_', 'I', 'D'], v1),
      (['T', 'X', '_', 'T', 'Y', 'P', 'E'], v2),
      (['F', 'R', 'O', 'M', '_', 'U', 'S', 'E', 'R', '_', 'I', 'D'], v3),
      (['T', 'O', '_', 'U', 'S', 'E', 'R', '_', 'I', 'D'], v4),
      (['A', 'M', 'O', 'U', 'N', 'T'], v5),
      (['T', 'I', 'M', 'E', 'S', 'T', 'A', 'M', 'P'], v6),
      (['S', 'T', 'A', 'T', 'U', 'S'], v7),
      (['D', 'E', 'S', 'C', 'R', 'I', 'P', 'T', 'I', 'O', 'N'], v8)] =
      match parseU32 v1, TransactionType.fromWire v2, parseU32 v3, parseU32 v4,
          parseU64 v5, parseU64 v6, TransactionStatus.fromWire v7 with
      | some x1, some x2, some x3, some x4, some x5, some x6, some x7 =>
        Except.ok ⟨x1, x2, x3, x4, x5, x6, x7, v8⟩
      | _, _, _, _, _, _, _ =>
        Except.error (.ParseError
          ['i', 'n', 'v', 'a', 'l', 'i', 'd', ' ', 'v', 'a', 'l', 'u', 'e']) := rfl
  rw [hb, a1, a2, a3, a4, a5, a6, a7]

/-!  ### The block-format round trip  -/

theorem parseU32_natToChars {n : Nat} (h : n < 2 ^ 32) : parseU32 (natToChars n) = some n :=
  parseUnsigned_natToChars h

theorem parseU64_natToChars {n : Nat} (h : n < 2 ^ 64) : parseU64 (natToChars n) = some n :=
  parseUnsigned_natToChars h

theorem from_read_write_to (r : YPBankTextRecord) (rest : List Nat)
    (h1 : r.id < 2 ^ 32) (h2 : r.from_user_id < 2 ^ 32) (h3 : r.to_user_id < 2 ^ 32)
    (h4 : r.amount < 2 ^ 64) (h5 : r.timestamp < 2 ^ 64)
    (hd1 : '\n' ∉ r.description) (hd2 : rustTrim r.description = r.description) :
    from_read (write_to r ++ rest) = (.ok r, rest) := by
  obtain ⟨n1, ty, n3, n4, n5, n6, st, d⟩ := r
  simp only at h1 h2 h3 h4 h5 hd1 hd2
  have hw : write_to ⟨n1, ty, n3, n4, n5, n6, st, d⟩ ++ rest =
      linesBytes [['T', 'X', '_', 'I', 'D'] ++ ':' :: ' ' :: natToChars n1,
        ['T', 'X', '_', 'T', 'Y', 'P', 'E'] ++ ':' :: ' ' :: ty.toWire,
        ['F', 'R', 'O', 'M', '_', 'U', 'S', 'E', 'R', '_', 'I', 'D'] ++ ':' :: ' ' ::
          natToChars n3,
        ['T', 'O', '_', 'U', 'S', 'E', 'R', '_', 'I', 'D'] ++ ':' :: ' ' :: natToChars n4,
        ['A', 'M', 'O', 'U', 'N', 'T'] ++ ':' :: ' ' :: natToChars n5,
        ['T', 'I', 'M', 'E', 'S', 'T', 'A', 'M', 'P'] ++ ':' :: ' ' :: natToChars n6,
        ['S', 'T', 'A', 'T', 'U', 'S'] ++ ':' :: ' ' :: st.toWire,
        ['D', 'E', 'S', 'C', 'R', 'I', 'P', 'T', 'I', 'O', 'N'] ++ ':' :: ' ' :: d] ++
        (writelnBytes [] ++ rest) := by
    simp [write_to, linesBytes, List.append_assoc]
  rw [from_read_eq_from_readF, hw]
  have hd3 : ∀ c ∈ d, True := fun _ _ => trivial
  have hblock : ∀ l ∈ [['T', 'X', '_', 'I', 'D'] ++ ':' :: ' ' :: natToChars n1,
      ['T', 'X', '_', 'T', 'Y', 'P', 'E'] ++ ':' :: ' ' :: ty.toWire,
      ['F', 'R', 'O', 'M', '_', 'U', 'S', 'E', 'R', '_', 'I', 'D'] ++ ':' :: ' ' ::
        natToChars n3,
      ['T', 'O', '_', 'U', 'S', 'E', 'R', '_', 'I', 'D'] ++ ':' :: ' ' :: natToChars n4,
      ['A', 'M', 'O', 'U', 'N', 'T'] ++ ':' :: ' ' :: natToChars n5,
      ['T', 'I', 'M', 'E', 'S', 'T', 'A', 'M', 'P'] ++ ':' :: ' ' :: natToChars n6,
      ['S', 'T', 'A', 'T', 'U', 'S'] ++ ':' :: ' ' :: st.toWire,
      ['D', 'E', 'S', 'C', 'R', 'I', 'P', 'T', 'I', 'O', 'N'] ++ ':' :: ' ' :: d],
      BlockLine l := by
    intro l hl
    simp only [List.mem_cons, List.not_mem_nil, or_false] at hl
    rcases hl with h | h | h | h | h | h | h | h <;> subst h
    · exact blockLine_canonical _ _ (by decide) (by decide) (rustTrim_natToChars n1)
        (newline_not_mem_natToChars n1)
    · exact blockLine_canonical _ _ (by decide) (by decide)
        (rustTrim_of_all_not_ws _ (TransactionType.toWire_ty_not_ws ty))
        (not_mem_newline_of_not_ws _ (TransactionType.toWire_ty_not_ws ty))
    · exact blockLine_canonical _ _ (by decide) (by decide) (rustTrim_natToChars n3)
        (newline_not_mem_natToChars n3)
    · exact blockLine_canonical _ _ (by decide) (by decide) (rustTrim_natToChars n4)
        (newline_not_mem_natToChars n4)
    · exact blockLine_canonical _ _ (by decide) (by decide) (rustTrim_natToChars n5)
        (newline_not_mem_natToChars n5)
    · exact blockLine_canonical _ _ (by decide) (by decide) (rustTrim_natToChars n6)
        (newline_not_mem_natToChars n6)
    · exact blockLine_canonical _ _ (by decide) (by decide)
        (rustTrim_of_all_not_ws _ (TransactionStatus.toWire_st_not_ws st))
        (not_mem_newline_of_not_ws _ (TransactionStatus.toWire_st_not_ws st))
    · exact blockLine_canonical _ _ (by decide) (by decide) hd2 hd1
  rw [from_readF_block _ [] false _ hblock]
  simp only [List.foldl_cons, List.foldl_nil]
  rw [lineInsert_canonical [] ['T', 'X', '_', 'I', 'D'] (natToChars n1) (by decide) (by decide)
    (by decide) (rustTrim_natToChars n1)]
  rw [lineInsert_canonical _ ['T', 'X', '_', 'T', 'Y', 'P', 'E'] ty.toWire (by decide)
    (by decide) (by decide) (rustTrim_of_all_not_ws _ (TransactionType.toWire_ty_not_ws ty))]
  rw [lineInsert_canonical _ ['F', 'R', 'O', 'M', '_', 'U', 'S', 'E', 'R', '_', 'I', 'D']
    (natToChars n3) (by decide) (by decide) (by decide) (rustTrim_natToChars n3)]
  rw [lineInsert_canonical _ ['T', 'O', '_', 'U', 'S', 'E', 'R', '_', 'I', 'D'] (natToChars n4)
    (by decide) (by decide) (by decide) (rustTrim_natToChars n4)]
  rw [lineInsert_canonical _ ['A', 'M', 'O', 'U', 'N', 'T'] (natToChars n5) (by decide)
    (by decide) (by decide) (rustTrim_natToChars n5)]
  rw [lineInsert_canonical _ ['T', 'I', 'M', 'E', 'S', 'T', 'A', 'M', 'P'] (natToChars n6)
    (by decide) (by decide) (by decide) (rustTrim_natToChars n6)]
  rw [lineInsert_canonical _ ['S', 'T', 'A', 'T', 'U', 'S'] st.toWire (by decide) (by decide)
    (by decide) (rustTrim_of_all_not_ws _ (TransactionStatus.toWire_st_not_ws st))]
  rw [lineInsert_canonical _ ['D', 'E', 'S', 'C', 'R', 'I', 'P', 'T', 'I', 'O', 'N'] d
    (by decide) (by decide) (by decide) hd2]
  have hm : kvInsert (kvInsert (kvInsert (kvInsert (kvInsert (kvInsert (kvInsert (kvInsert []
      ['T', 'X', '_', 'I', 'D'] (natToChars n1))
      ['T', 'X', '_', 'T', 'Y', 'P', 'E'] ty.toWire)
      ['F', 'R', 'O', 'M', '_', 'U', 'S', 'E', 'R', '_', 'I', 'D'] (natToChars n3))
      ['T', 'O', '_', 'U', 'S', 'E', 'R', '_', 'I', 'D'] (natToChars n4))
      ['A', 'M', 'O', 'U', 'N', 'T'] (natToChars n5))
      ['T', 'I', 'M', 'E', 'S', 'T', 'A', 'M', 'P'] (natToChars n6))
      ['S', 'T', 'A', 'T', 'U', 'S'] st.toWire)
      ['D', 'E', 'S', 'C', 'R', 'I', 'P', 'T', 'I', 'O', 'N'] d =
      [(['T', 'X', '_', 'I', 'D'], natToChars n1),
       (['T', 'X', '_', 'T', 'Y', 'P', 'E'], ty.toWire),
       (['F', 'R', 'O', 'M', '_', 'U', 'S', 'E', 'R', '_', 'I', 'D'], natToChars n3),
       (['T', 'O', '_', 'U', 'S', 'E', 'R', '_', 'I', 'D'], natToChars n4),
       (['A', 'M', 'O', 'U', 'N', 'T'], natToChars n5),
       (['T', 'I', 'M', 'E', 'S', 'T', 'A', 'M', 'P'], natToChars n6),
       (['S', 'T', 'A', 'T', 'U', 'S'], st.toWire),
       (['D', 'E', 'S', 'C', 'R', 'I', 'P', 'T', 'I', 'O', 'N'], d)] := rfl
  rw [hm]
  rw [from_readF_final [] _ _ _ (by simp) rfl (by simp)]
  rw [parse_transaction_canonical d (parseU32_natToChars h1) (TransactionType.fromWire_toWire_ty ty)
    (parseU32_natToChars h2) (parseU32_natToChars h3) (parseU64_natToChars h4)
    (parseU64_natToChars h5) (TransactionStatus.fromWire_toWire_st st)]

/-!  ### Finalization never yields a structural or stream error  -/

theorem parse_transaction_ok_or_parse_error (m : KV) :
    (∃ rec, parse_transaction m = .ok rec) ∨
      ∃ s, parse_transaction m = .error (.ParseError s) := by
  unfold parse_transaction
  split
  · split
    · split
      · exact Or.inl ⟨_, rfl⟩
      · exact Or.inr ⟨_, rfl⟩
    · exact Or.inr ⟨_, rfl⟩
  · exact Or.inr ⟨_, rfl⟩

theorem parse_transaction_ne_source_is_empty (m : KV) (rest rest2 : List Nat) :
    (parse_transaction m, rest) ≠
      ((.error .SourceIsEmpty : Except TextRecordError YPBankTextRecord), rest2) := by
  intro h
  rcases parse_transaction_ok_or_parse_error m with ⟨rec, hr⟩ | ⟨s, hr⟩ <;>
    rw [hr] at h <;> cases congrArg Prod.fst h

/-- `SourceIsEmpty` comes out of the loop only when `has_started` was
false and the input was exhausted: the flag is per-call, so the error
characterizes a call that read zero bytes. -/
theorem from_read_aux_source_is_empty (fuel : Nat) : ∀ (kv : KV) (hs : Bool) (input : List Nat),
    (from_read_aux fuel kv hs input).1 = .error .SourceIsEmpty → hs = false ∧ input = [] := by
  induction fuel with
  | zero =>
    intro kv hs input h
    cases h
  | succ fuel ih =>
    intro kv hs input h
    rw [from_read_aux] at h
    rcases hr : readLine input with ⟨lb, rest2, eof⟩
    have hlen := readLine_length input
    rw [hr] at hlen
    simp only at hlen
    rw [hr] at h
    simp only at h
    cases hd : utf8Decode lb with
    | none =>
      rw [hd] at h
      cases h
    | some line =>
      rw [hd] at h
      simp only at h
      by_cases hc : startsWithHash (rustTrim line) = true
      · rw [if_pos hc] at h
        obtain ⟨hhs, hrest⟩ := ih kv _ rest2 h
        have : hs = false ∧ input.isEmpty = true := by
          revert hhs
          cases hs <;> cases hi : input.isEmpty <;> simp
        exact ⟨this.1, List.isEmpty_iff.mp this.2⟩
      · rw [if_neg hc] at h
        by_cases ht : (rustTrim line).isEmpty = true
        · rw [if_pos ht] at h
          by_cases hkv : (!kv.isEmpty) = true
          · rw [if_pos hkv] at h
            simp only at h
            rcases parse_transaction_ok_or_parse_error kv with ⟨rec, hr2⟩ | ⟨s, hr2⟩ <;>
              rw [hr2] at h <;> cases h
          · rw [if_neg hkv] at h
            by_cases he : eof = true
            · rw [if_pos he] at h
              by_cases hhs : (!(hs || !input.isEmpty)) = true
              · rw [if_pos hhs] at h
                have : hs = false ∧ input.isEmpty = true := by
                  revert hhs
                  cases hs <;> cases hi : input.isEmpty <;> simp
                exact ⟨this.1, List.isEmpty_iff.mp this.2⟩
              · rw [if_neg hhs] at h
                cases h
            · rw [if_neg he] at h
              obtain ⟨hhs, hrest⟩ := ih kv _ rest2 h
              have : hs = false ∧ input.isEmpty = true := by
                revert hhs
                cases hs <;> cases hi : input.isEmpty <;> simp
              exact ⟨this.1, List.isEmpty_iff.mp this.2⟩
        · rw [if_neg ht] at h
          cases hsp : splitOnceColon (rustTrim line) with
          | none =>
            rw [hsp] at h
            cases h
          | some p =>
            obtain ⟨k, v⟩ := p
            rw [hsp] at h
            simp only at h
            by_cases he : (eof && !(kvInsert kv (rustTrim k) (rustTrim v)).isEmpty) = true
            · rw [if_pos he] at h
              rcases parse_transaction_ok_or_parse_error
                  (kvInsert kv (rustTrim k) (rustTrim v)) with ⟨rec, hr2⟩ | ⟨s, hr2⟩ <;>
                rw [hr2] at h <;> cases h
            · rw [if_neg he] at h
              obtain ⟨hhs, hrest⟩ := ih _ _ rest2 h
              have : hs = false ∧ input.isEmpty = true := by
                revert hhs
                cases hs <;> cases hi : input.isEmpty <;> simp
              exact ⟨this.1, List.isEmpty_iff.mp this.2⟩

theorem from_read_source_is_empty_iff (input : List Nat) :
    (from_read input).1 = .error .SourceIsEmpty ↔ input = [] := by
  constructor
  · intro h
    exact (from_read_aux_source_is_empty _ [] false input h).2
  · intro h
    subst h
    rfl

/-!  ### Whole blocks  -/

/-- The accumulated mapping a block's lines produce. -/
def blockMap (ls : List Str) : KV := ls.foldl lineInsert []

/-- The bytes of one block: its leading skippable lines, its content
lines, and the terminating blank line. -/
def blockBytes (p : List Str × List Str) : List Nat :=
  linesBytes p.1 ++ linesBytes p.2 ++ writelnBytes []

/-- The bytes of a sequence of blocks. -/
def streamBytes : List (List Str × List Str) → List Nat
  | [] => []
  | p :: ps => blockBytes p ++ streamBytes ps

theorem parse_transaction_nil :
    parse_transaction [] =
      .error (.ParseError ['m', 'i', 's', 's', 'i', 'n', 'g', ' ', 'f', 'i', 'e', 'l', 'd']) :=
  rfl

theorem from_read_one_block (pre blk : List Str) (rest : List Nat)
    (hpre : ∀ l ∈ pre, PreLine l) (hblk : ∀ l ∈ blk, BlockLine l)
    (hne : blockMap blk ≠ []) :
    from_read (blockBytes (pre, blk) ++ rest) = (parse_transaction (blockMap blk), rest) := by
  have hshape : blockBytes (pre, blk) ++ rest =
      linesBytes pre ++ (linesBytes blk ++ (writelnBytes [] ++ rest)) := by
    simp [blockBytes, List.append_assoc]
  rw [from_read_eq_from_readF, hshape, from_readF_pre pre false _ hpre,
    from_readF_block blk [] _ _ hblk]
  exact from_readF_final [] _ _ _ (by simp) rfl hne

theorem from_readN_blocks (bs : List (List Str × List Str)) (rs : List YPBankTextRecord)
    (rest : List Nat)
    (hrec : List.Forall₂ (fun p r => parse_transaction (blockMap p.2) = .ok r) bs rs)
    (hpre : ∀ p ∈ bs, ∀ l ∈ p.1, PreLine l)
    (hblk : ∀ p ∈ bs, ∀ l ∈ p.2, BlockLine l) :
    from_readN bs.length (streamBytes bs ++ rest) = (rs.map .ok, rest) := by
  revert hpre hblk
  induction hrec generalizing rest with
  | nil =>
    intro _ _
    simp [from_readN, streamBytes]
  | @cons p r ps rs2 hpr htail ih =>
    intro hpre hblk
    obtain ⟨pre, blk⟩ := p
    have hshape : streamBytes ((pre, blk) :: ps) ++ rest =
        blockBytes (pre, blk) ++ (streamBytes ps ++ rest) := by
      simp [streamBytes, List.append_assoc]
    have hne : blockMap blk ≠ [] := by
      intro hnil
      rw [hnil, parse_transaction_nil] at hpr
      cases hpr
    have hone := from_read_one_block pre blk (streamBytes ps ++ rest)
      (hpre (pre, blk) (by simp)) (hblk (pre, blk) (by simp)) hne
    rw [List.length_cons, from_readN, hshape, hone, hpr]
    have ihx := ih rest (fun q hq => hpre q (by simp [hq])) (fun q hq => hblk q (by simp [hq]))
    simp only [ihx]
    simp

/-!  ### Invalid UTF-8 lines  -/

theorem from_readF_bad_utf8 (lb rest : List Nat) (kv : KV) (hs : Bool)
    (hbad : utf8Decode lb = none) (hnl : (10 : Nat) ∉ lb) :
    from_readF kv hs (lb ++ 10 :: rest) = (.error (.ParseError invalidUtf8Msg), rest) := by
  show from_read_aux ((lb ++ 10 :: rest).length + 1) kv hs (lb ++ 10 :: rest) = _
  rw [from_read_aux, readLine_append lb rest hnl]
  simp only [hbad]

theorem mem_of_mem_rustTrim {c : Char} {s : Str} (h : c ∈ rustTrim s) : c ∈ s := by
  have h1 : c ∈ trimLeft s := by
    rw [rustTrim, trimRight] at h
    have h2 := List.mem_reverse.mp h
    exact List.mem_reverse.mp ((List.dropWhile_suffix _).subset h2)
  exact (List.dropWhile_suffix _).subset h1

/-!  ### The streaming read facade of `lib.rs`  -/

/-- The streaming facade `Parser` of `lib.rs`, instantiated at the
block-format record type: the reader state is the remaining byte
stream, and `read_error` is the field that stores the error of the most
recent failed decode. -/
structure Parser where
  stream : List Nat
  read_error : Option TextRecordError
deriving DecidableEq

/-- `Iterator::next` for `Parser` (`lib.rs`): call the decoder once; on
success emit the record, on failure store the error in `read_error` and
emit nothing.  The result is the emitted item together with the updated
parser state. -/
def Parser.next (p : Parser) : Option (Except TextRecordError YPBankTextRecord) × Parser :=
  match from_read p.stream with
  | (.ok record, rest) => (some (.ok record), ⟨rest, p.read_error⟩)
  | (.error e, rest) => (none, ⟨rest, some e⟩)

theorem Parser.next_of_ok {p : Parser} {record : YPBankTextRecord} {rest : List Nat}
    (h : from_read p.stream = (.ok record, rest)) :
    p.next = (some (.ok record), ⟨rest, p.read_error⟩) := by
  rw [Parser.next, h]

theorem Parser.next_of_error {p : Parser} {e : TextRecordError} {rest : List Nat}
    (h : from_read p.stream = (.error e, rest)) :
    p.next = (none, ⟨rest, some e⟩) := by
  rw [Parser.next, h]

/-!  ### Small helpers and concrete fixtures  -/

theorem linesBytes_append (a b : List Str) :
    linesBytes (a ++ b) = linesBytes a ++ linesBytes b := by
  induction a with
  | nil => simp [linesBytes]
  | cons l t ih => simp [linesBytes, ih]

theorem no_newline_canonical (key value : Str)
    (hkey : ∀ c ∈ key, isRustWhitespace c = false) (hv : '\n' ∉ value) :
    '\n' ∉ key ++ ':' :: ' ' :: value := by
  intro hm
  rcases List.mem_append.mp hm with hm | hm
  · exact absurd (hkey _ hm) (by decide)
  · rcases List.mem_cons.mp hm with hm | hm
    · cases hm
    · rcases List.mem_cons.mp hm with hm | hm
      · cases hm
      · exact hv hm

instance (l : Str) : Decidable (PreLine l) := by
  unfold PreLine
  infer_instance

instance (l : Str) : Decidable (BlockLine l) := by
  unfold BlockLine
  infer_instance

/-- Lines of a well-formed block (`TX_ID: 1`, deposit, description
`x`). -/
def goodBlockLines : List Str :=
  [['T', 'X', '_', 'I', 'D', ':', ' ', '1'],
   ['T', 'X', '_', 'T', 'Y', 'P', 'E', ':', ' ', 'D', 'E', 'P', 'O', 'S', 'I', 'T'],
   ['F', 'R', 'O', 'M', '_', 'U', 'S', 'E', 'R', '_', 'I', 'D', ':', ' ', '0'],
   ['T', 'O', '_', 'U', 'S', 'E', 'R', '_', 'I', 'D', ':', ' ', '2'],
   ['A', 'M', 'O', 'U', 'N', 'T', ':', ' ', '3'],
   ['T', 'I', 'M', 'E', 'S', 'T', 'A', 'M', 'P', ':', ' ', '4'],
   ['S', 'T', 'A', 'T', 'U', 'S', ':', ' ', 'S', 'U', 'C', 'C', 'E', 'S', 'S'],
   ['D', 'E', 'S', 'C', 'R', 'I', 'P', 'T', 'I', 'O', 'N', ':', ' ', 'x']]

/-- The record encoded by `goodBlockLines`. -/
def goodRecord : YPBankTextRecord := ⟨1, .Deposit, 0, 2, 3, 4, .Success, ['x']⟩

/-- The bytes of one complete well-formed block, blank-line
terminated. -/
def goodBlockStream : List Nat := linesBytes (goodBlockLines ++ [[]])

/-- Lines of a second well-formed block (`TX_ID: 9`, transfer), with a
comment interleaved among its key/value lines. -/
def secondBlockLines : List Str :=
  [['T', 'X', '_', 'I', 'D', ':', ' ', '9'],
   ['#', ' ', 'c'],
   ['T', 'X', '_', 'T', 'Y', 'P', 'E', ':', ' ', 'T', 'R', 'A', 'N', 'S', 'F', 'E', 'R'],
   ['F', 'R', 'O', 'M', '_', 'U', 'S', 'E', 'R', '_', 'I', 'D', ':', ' ', '1'],
   ['T', 'O', '_', 'U', 'S', 'E', 'R', '_', 'I', 'D', ':', ' ', '0'],
   ['A', 'M', 'O', 'U', 'N', 'T', ':', ' ', '5'],
   ['T', 'I', 'M', 'E', 'S', 'T', 'A', 'M', 'P', ':', ' ', '6'],
   ['S', 'T', 'A', 'T', 'U', 'S', ':', ' ', 'P', 'E', 'N', 'D', 'I', 'N', 'G'],
   ['D', 'E', 'S', 'C', 'R', 'I', 'P', 'T', 'I', 'O', 'N', ':', ' ', 'y']]

/-- The record encoded by `secondBlockLines`. -/
def secondRecord : YPBankTextRecord := ⟨9, .Transfer, 1, 0, 5, 6, .Pending, ['y']⟩

/-- Two blocks: the first preceded by a comment line, the second by an
extra blank line, a comment and another blank line. -/
def demoBlocks : List (List Str × List Str) :=
  [([['#', ' ', 'R', '1']], goodBlockLines),
   ([[], ['#', ' ', 'R', '2'], [' ']], secondBlockLines)]

/-- A line without a colon followed by a blank line and a well-formed
block: the first decode call fails, the next one succeeds. -/
def badThenGoodStream : List Nat := linesBytes ([['X', 'Y'], []] ++ goodBlockLines ++ [[]])

/-- The spec's example record (§8). -/
def exampleRecord : YPBankTextRecord :=
  ⟨1001, .Deposit, 0, 501, 50000, 1672531200000, .Success,
    ['I', 'n', 'i', 't', 'i', 'a', 'l', ' ', 'a', 'c', 'c', 'o', 'u', 'n', 't', ' ',
     'f', 'u', 'n', 'd', 'i', 'n', 'g']⟩

/-- A block whose `STATUS` value is outside the closed enumeration. -/
def statusBadStream : List Nat :=
  linesBytes
    [['T', 'X', '_', 'I', 'D', ':', ' ', '1'],
     ['T', 'X', '_', 'T', 'Y', 'P', 'E', ':', ' ', 'D', 'E', 'P', 'O', 'S', 'I', 'T'],
     ['F', 'R', 'O', 'M', '_', 'U', 'S', 'E', 'R', '_', 'I', 'D', ':', ' ', '0'],
     ['T', 'O', '_', 'U', 'S', 'E', 'R', '_', 'I', 'D', ':', ' ', '2'],
     ['A', 'M', 'O', 'U', 'N', 'T', ':', ' ', '3'],
     ['T', 'I', 'M', 'E', 'S', 'T', 'A', 'M', 'P', ':', ' ', '4'],
     ['S', 'T', 'A', 'T', 'U', 'S', ':', ' ', 'U', 'N', 'K', 'N', 'O', 'W', 'N', '_',
      'S', 'T', 'A', 'T', 'U', 'S'],
     ['D', 'E', 'S', 'C', 'R', 'I', 'P', 'T', 'I', 'O', 'N', ':', ' ', 'x'], []]

/-- A block whose `AMOUNT` value is not a number. -/
def amountBadStream : List Nat :=
  linesBytes
    [['T', 'X', '_', 'I', 'D', ':', ' ', '1'],
     ['T', 'X', '_', 'T', 'Y', 'P', 'E', ':', ' ', 'D', 'E', 'P', 'O', 'S', 'I', 'T'],
     ['F', 'R', 'O', 'M', '_', 'U', 'S', 'E', 'R', '_', 'I', 'D', ':', ' ', '0'],
     ['T', 'O', '_', 'U', 'S', 'E', 'R', '_', 'I', 'D', ':', ' ', '2'],
     ['A', 'M', 'O', 'U', 'N', 'T', ':', ' ', 'n', 'o', 't', '_', 'a', '_', 'n', 'u',
      'm', 'b', 'e', 'r'],
     ['T', 'I', 'M', 'E', 'S', 'T', 'A', 'M', 'P', ':', ' ', '4'],
     ['S', 'T', 'A', 'T', 'U', 'S', ':', ' ', 'S', 'U', 'C', 'C', 'E', 'S', 'S'],
     ['D', 'E', 'S', 'C', 'R', 'I', 'P', 'T', 'I', 'O', 'N', ':', ' ', 'x'], []]

/-- A block whose `TX_ID` value is negative. -/
def negIdStream : List Nat :=
  linesBytes
    [['T', 'X', '_', 'I', 'D', ':', ' ', '-', '5'],
     ['T', 'X', '_', 'T', 'Y', 'P', 'E', ':', ' ', 'D', 'E', 'P', 'O', 'S', 'I', 'T'],
     ['F', 'R', 'O', 'M', '_', 'U', 'S', 'E', 'R', '_', 'I', 'D', ':', ' ', '0'],
     ['T', 'O', '_', 'U', 'S', 'E', 'R', '_', 'I', 'D', ':', ' ', '2'],
     ['A', 'M', 'O', 'U', 'N', 'T', ':', ' ', '3'],
     ['T', 'I', 'M', 'E', 'S', 'T', 'A', 'M', 'P', ':', ' ', '4'],
     ['S', 'T', 'A', 'T', 'U', 'S', ':', ' ', 'S', 'U', 'C', 'C', 'E', 'S', 'S'],
     ['D', 'E', 'S', 'C', 'R', 'I', 'P', 'T', 'I', 'O', 'N', ':', ' ', 'x'], []]

/-- A block with all eight valid keys plus a ninth unknown key. -/
def unknownKeyStream : List Nat :=
  linesBytes (goodBlockLines ++
    [['U', 'N', 'K', 'N', 'O', 'W', 'N', '_', 'F', 'I', 'E', 'L', 'D', ':', ' ', 'x'], []])

/-- A block missing the `DESCRIPTION` key. -/
def missingKeyStream : List Nat :=
  linesBytes
    [['T', 'X', '_', 'I', 'D', ':', ' ', '1'],
     ['T', 'X', '_', 'T', 'Y', 'P', 'E', ':', ' ', 'D', 'E', 'P', 'O', 'S', 'I', 'T'],
     ['F', 'R', 'O', 'M', '_', 'U', 'S', 'E', 'R', '_', 'I', 'D', ':', ' ', '0'],
     ['T', 'O', '_', 'U', 'S', 'E', 'R', '_', 'I', 'D', ':', ' ', '2'],
     ['A', 'M', 'O', 'U', 'N', 'T', ':', ' ', '3'],
     ['T', 'I', 'M', 'E', 'S', 'T', 'A', 'M', 'P', ':', ' ', '4'],
     ['S', 'T', 'A', 'T', 'U', 'S', ':', ' ', 'S', 'U', 'C', 'C', 'E', 'S', 'S'], []]

/-- A block in which `TX_ID` appears twice with different values. -/
def dupKeyStream : List Nat :=
  linesBytes
    [['T', 'X', '_', 'I', 'D', ':', ' ', '1'],
     ['T', 'X', '_', 'I', 'D', ':', ' ', '9'],
     ['T', 'X', '_', 'T', 'Y', 'P', 'E', ':', ' ', 'D', 'E', 'P', 'O', 'S', 'I', 'T'],
     ['F', 'R', 'O', 'M', '_', 'U', 'S', 'E', 'R', '_', 'I', 'D', ':', ' ', '0'],
     ['T', 'O', '_', 'U', 'S', 'E', 'R', '_', 'I', 'D', ':', ' ', '2'],
     ['A', 'M', 'O', 'U', 'N', 'T', ':', ' ', '3'],
     ['T', 'I', 'M', 'E', 'S', 'T', 'A', 'M', 'P', ':', ' ', '4'],
     ['S', 'T', 'A', 'T', 'U', 'S', ':', ' ', 'S', 'U', 'C', 'C', 'E', 'S', 'S'],
     ['D', 'E', 'S', 'C', 'R', 'I', 'P', 'T', 'I', 'O', 'N', ':', ' ', 'x'], []]

/-- The record carrying the last-written `TX_ID` of `dupKeyStream`. -/
def dupRecord : YPBankTextRecord := ⟨9, .Deposit, 0, 2, 3, 4, .Success, ['x']⟩

/-!  ### The claims  -/

/-- Claim C1: for every record whose fields are valid (all eight fields
populated with in-range unsigned values, description free of newlines
and of surrounding whitespace), decoding the bytes produced by the
block encoder yields the record again, field for field: block-format
decode is a left inverse of block-format encode on valid records. -/
theorem claim1_decode_encode_roundtrip (r : YPBankTextRecord)
    (h1 : r.id < 2 ^ 32) (h2 : r.from_user_id < 2 ^ 32) (h3 : r.to_user_id < 2 ^ 32)
    (h4 : r.amount < 2 ^ 64) (h5 : r.timestamp < 2 ^ 64)
    (hd1 : '\n' ∉ r.description) (hd2 : rustTrim r.description = r.description) :
    from_read (write_to r) = (.ok r, []) := by
  have h := from_read_write_to r [] h1 h2 h3 h4 h5 hd1 hd2
  rwa [List.append_nil] at h

theorem claim1_decode_encode_roundtrip_witness :
    (exampleRecord.id < 2 ^ 32 ∧ exampleRecord.from_user_id < 2 ^ 32 ∧
      exampleRecord.to_user_id < 2 ^ 32 ∧ exampleRecord.amount < 2 ^ 64 ∧
      exampleRecord.timestamp < 2 ^ 64 ∧ '\n' ∉ exampleRecord.description ∧
      rustTrim exampleRecord.description = exampleRecord.description) ∧
    from_read (write_to exampleRecord) = (.ok exampleRecord, []) :=
  ⟨⟨by decide, by decide, by decide, by decide, by decide, by decide, by decide⟩,
   claim1_decode_encode_roundtrip exampleRecord (by decide) (by decide) (by decide) (by decide)
     (by decide) (by decide) (by decide)⟩

/-- Claim C2: a stream of `N` well-formed key/value blocks (each
finalizing to a record), separated by blank lines with comment and
blank lines interleaved anywhere before and inside the blocks, yields
under `N` successive decode calls exactly the `N` records in stream
order, with comment lines contributing no keys (the result depends only
on the blocks' key/value lines). -/
theorem claim2_stream_of_blocks (bs : List (List Str × List Str)) (rs : List YPBankTextRecord)
    (rest : List Nat)
    (hrec : List.Forall₂ (fun p r => parse_transaction (blockMap p.2) = .ok r) bs rs)
    (hpre : ∀ p ∈ bs, ∀ l ∈ p.1, PreLine l)
    (hblk : ∀ p ∈ bs, ∀ l ∈ p.2, BlockLine l) :
    from_readN bs.length (streamBytes bs ++ rest) = (rs.map .ok, rest) :=
  from_readN_blocks bs rs rest hrec hpre hblk

theorem claim2_stream_of_blocks_witness :
    (List.Forall₂ (fun p r => parse_transaction (blockMap p.2) = .ok r) demoBlocks
        [goodRecord, secondRecord] ∧
      (∀ p ∈ demoBlocks, ∀ l ∈ p.1, PreLine l) ∧
      (∀ p ∈ demoBlocks, ∀ l ∈ p.2, BlockLine l)) ∧
    from_readN demoBlocks.length (streamBytes demoBlocks ++ [77]) =
      ([goodRecord, secondRecord].map .ok, [77]) :=
  ⟨⟨List.Forall₂.cons rfl (List.Forall₂.cons rfl List.Forall₂.nil), by decide, by decide⟩,
   claim2_stream_of_blocks demoBlocks [goodRecord, secondRecord] [77]
     (List.Forall₂.cons rfl (List.Forall₂.cons rfl List.Forall₂.nil)) (by decide) (by decide)⟩

/-- Claim C3 counterexample: a stream consisting of one comment line
(bytes `#` then newline) is non-empty but contains no key/value line;
the claim says the decode call returns `SourceIsEmpty`, while the code
returns the distinct `EmptyLinesAtEndOfFile` (the per-call
`has_started` flag is set by any byte read, including blank and comment
bytes). -/
theorem claim3_counterexample :
    from_read [35, 10] = (.error .EmptyLinesAtEndOfFile, []) ∧
      TextRecordError.EmptyLinesAtEndOfFile ≠ TextRecordError.SourceIsEmpty :=
  ⟨rfl, by decide⟩

/-- Claim C3 (amended): a completely empty input stream yields
`SourceIsEmpty`; a stream that contains bytes but only blank and/or
comment lines yields `EmptyLinesAtEndOfFile` — not a field error and
not `SourceIsEmpty`. -/
theorem claim3_empty_source (pre : List Str) (hne : pre ≠ [])
    (hpre : ∀ l ∈ pre, PreLine l) :
    from_read [] = (.error .SourceIsEmpty, []) ∧
      from_read (linesBytes pre) = (.error .EmptyLinesAtEndOfFile, []) := by
  refine ⟨rfl, ?_⟩
  have h0 : linesBytes pre = linesBytes pre ++ [] := by simp
  rw [from_read_eq_from_readF, h0, from_readF_pre pre false [] hpre, from_readF_nil]
  simp [List.isEmpty_iff, hne]

theorem claim3_empty_source_witness :
    (([['#']] : List Str) ≠ [] ∧ ∀ l ∈ ([['#']] : List Str), PreLine l) ∧
      (from_read [] = (.error .SourceIsEmpty, []) ∧
        from_read (linesBytes [['#']]) = (.error .EmptyLinesAtEndOfFile, [])) :=
  ⟨⟨by decide, by decide⟩, claim3_empty_source [['#']] (by decide) (by decide)⟩

/-- Claim C4 counterexample: after a decode call that successfully
returns a record and consumes the stream up to its end, the next decode
call returns `SourceIsEmpty`, not `EmptyLinesAtEndOfFile`: the
`has_started` flag is local to each call, so "exhausted after a
previous success" is not distinguished from "no content from the
start" when zero bytes remain. -/
theorem claim4_counterexample :
    from_read goodBlockStream = (.ok goodRecord, []) ∧
      from_read (from_read goodBlockStream).2 = (.error .SourceIsEmpty, []) :=
  ⟨rfl, rfl⟩

/-- Claim C4 (amended): a decode call returns `SourceIsEmpty` exactly
when it reads zero bytes (the remaining stream is empty), regardless of
what previous calls on the source did; after a successful call, a
subsequent call returns `EmptyLinesAtEndOfFile` when at least one
blank/comment byte remains, and `SourceIsEmpty` when the stream was
fully consumed. -/
theorem claim4_exhaustion_errors :
    (∀ input : List Nat, (from_read input).1 = .error .SourceIsEmpty ↔ input = []) ∧
    from_read (goodBlockStream ++ [10]) = (.ok goodRecord, [10]) ∧
    from_read [10] = (.error .EmptyLinesAtEndOfFile, []) ∧
    from_read [] = (.error .SourceIsEmpty, []) :=
  ⟨from_read_source_is_empty_iff, rfl, rfl, rfl⟩

/-- Claim C5 counterexample: the streaming facade's `next` is not
fused.  On a stream whose first line lacks a colon and is followed by a
well-formed block, the first `next` returns `none` and stores the
error, but the second `next` re-invokes the decoder and yields a
record, contradicting "every subsequent call to next also returns
None". -/
theorem claim5_counterexample :
    (Parser.next ⟨badThenGoodStream, none⟩).1 = none ∧
      (Parser.next ⟨badThenGoodStream, none⟩).2.read_error = some .MissingColonAfterKey ∧
      (Parser.next (Parser.next ⟨badThenGoodStream, none⟩).2).1 =
        some (.ok goodRecord) :=
  ⟨rfl, rfl, rfl⟩

/-- Claim C5 (amended): `next` returns `none` exactly when the
underlying decode call fails, and it then stores that (most recent)
error in `read_error`; on a successful decode it yields the record and
leaves `read_error` unchanged.  The iterator is not fused: a later call
runs the decoder again on the advanced stream. -/
theorem claim5_next_behavior :
    (∀ p : Parser, (p.next).1 = none ↔ ∃ e rest, from_read p.stream = (.error e, rest)) ∧
    (∀ (p : Parser) (e : TextRecordError) (rest : List Nat),
      from_read p.stream = (.error e, rest) → (p.next).2 = ⟨rest, some e⟩) ∧
    (∀ (p : Parser) (record : YPBankTextRecord) (rest : List Nat),
      from_read p.stream = (.ok record, rest) →
        p.next = (some (.ok record), ⟨rest, p.read_error⟩)) := by
  refine ⟨?_, ?_, fun p record rest h => Parser.next_of_ok h⟩
  · intro p
    constructor
    · intro h
      rcases hr : from_read p.stream with ⟨res, rest⟩
      cases res with
      | ok record =>
        rw [Parser.next_of_ok hr] at h
        cases h
      | error e => exact ⟨e, rest, rfl⟩
    · rintro ⟨e, rest, hr⟩
      rw [Parser.next_of_error hr]
  · intro p e rest h
    rw [Parser.next_of_error h]

/-- Claim C6: finalization of an accumulated mapping succeeds exactly
when every key is one of the eight known keys and each of the eight is
present with a value that coerces to its field type; every failure —
missing key, unknown ninth key, out-of-set enumeration value,
non-numeric or negative value for an unsigned field — surfaces as
`ParseError` (`FieldError`), never as a silently dropped field or a
defaulted record (finalization only ever returns a record or a
`ParseError`).  The concrete streams exercise `STATUS: UNKNOWN_STATUS`,
`AMOUNT: not_a_number`, `TX_ID: -5`, an unknown ninth key and a missing
key end-to-end. -/
theorem claim6_finalization :
    (∀ m : KV,
      (∃ rec, parse_transaction m = .ok rec) ↔
        ((m.all fun p => knownKeys.contains p.1) = true ∧
          (∃ s n, kvLookup m ['T', 'X', '_', 'I', 'D'] = some s ∧ parseU32 s = some n) ∧
          (∃ s t, kvLookup m ['T', 'X', '_', 'T', 'Y', 'P', 'E'] = some s ∧
            TransactionType.fromWire s = some t) ∧
          (∃ s n, kvLookup m ['F', 'R', 'O', 'M', '_', 'U', 'S', 'E', 'R', '_', 'I', 'D'] =
            some s ∧ parseU32 s = some n) ∧
          (∃ s n, kvLookup m ['T', 'O', '_', 'U', 'S', 'E', 'R', '_', 'I', 'D'] = some s ∧
            parseU32 s = some n) ∧
          (∃ s n, kvLookup m ['A', 'M', 'O', 'U', 'N', 'T'] = some s ∧ parseU64 s = some n) ∧
          (∃ s n, kvLookup m ['T', 'I', 'M', 'E', 'S', 'T', 'A', 'M', 'P'] = some s ∧
            parseU64 s = some n) ∧
          (∃ s t, kvLookup m ['S', 'T', 'A', 'T', 'U', 'S'] = some s ∧
            TransactionStatus.fromWire s = some t) ∧
          (∃ s, kvLookup m ['D', 'E', 'S', 'C', 'R', 'I', 'P', 'T', 'I', 'O', 'N'] = some s))) ∧
    (∀ m : KV, (∃ rec, parse_transaction m = .ok rec) ∨
      ∃ s, parse_transaction m = .error (.ParseError s)) ∧
    (∃ s, (from_read statusBadStream).1 = .error (.ParseError s)) ∧
    (∃ s, (from_read amountBadStream).1 = .error (.ParseError s)) ∧
    (∃ s, (from_read negIdStream).1 = .error (.ParseError s)) ∧
    (∃ s, (from_read unknownKeyStream).1 = .error (.ParseError s)) ∧
    (∃ s, (from_read missingKeyStream).1 = .error (.ParseError s)) := by
  refine ⟨?_, parse_transaction_ok_or_parse_error,
    ⟨_, rfl⟩, ⟨_, rfl⟩, ⟨_, rfl⟩, ⟨_, rfl⟩, ⟨_, rfl⟩⟩
  intro m
  constructor
  · rintro ⟨rec, hrec⟩
    unfold parse_transaction at hrec
    by_cases hall : (m.all fun p => knownKeys.contains p.1) = true
    · rw [if_pos hall] at hrec
      refine ⟨hall, ?_⟩
      split at hrec
      · rename_i s1 s2 s3 s4 s5 s6 s7 s8 hl1 hl2 hl3 hl4 hl5 hl6 hl7 hl8
        split at hrec
        · rename_i n1 ty n3 n4 n5 n6 st hp1 hp2 hp3 hp4 hp5 hp6 hp7
          exact ⟨⟨s1, n1, hl1, hp1⟩, ⟨s2, ty, hl2, hp2⟩, ⟨s3, n3, hl3, hp3⟩,
            ⟨s4, n4, hl4, hp4⟩, ⟨s5, n5, hl5, hp5⟩, ⟨s6, n6, hl6, hp6⟩,
            ⟨s7, st, hl7, hp7⟩, ⟨s8, hl8⟩⟩
        · cases hrec
      · cases hrec
    · rw [if_neg hall] at hrec
      cases hrec
  · rintro ⟨hall, ⟨s1, n1, hl1, hp1⟩, ⟨s2, ty, hl2, hp2⟩, ⟨s3, n3, hl3, hp3⟩,
      ⟨s4, n4, hl4, hp4⟩, ⟨s5, n5, hl5, hp5⟩, ⟨s6, n6, hl6, hp6⟩,
      ⟨s7, st, hl7, hp7⟩, ⟨s8, hl8⟩⟩
    unfold parse_transaction
    rw [if_pos hall, hl1, hl2, hl3, hl4, hl5, hl6, hl7, hl8]
    dsimp only
    rw [hp1, hp2, hp3, hp4, hp5, hp6, hp7]
    exact ⟨_, rfl⟩

/-- Claim C7: whenever the decode call reaches a non-blank non-comment
line containing no `:` anywhere (after any number of blank or comment
lines), it returns the structural error `MissingColonAfterKey`; the
remaining bytes `rest` of the stream are untouched, so the line is
neither skipped nor decoded past. -/
theorem claim7_missing_colon (pre : List Str) (l : Str) (rest : List Nat)
    (hpre : ∀ x ∈ pre, PreLine x) (hnl : '\n' ∉ l) (hne : rustTrim l ≠ [])
    (hhash : startsWithHash (rustTrim l) = false) (hcolon : ':' ∉ l) :
    from_read (linesBytes (pre ++ [l]) ++ rest) = (.error .MissingColonAfterKey, rest) := by
  have hsplit : splitOnceColon (rustTrim l) = none :=
    (splitOnceColon_eq_none_iff _).mpr fun hm => hcolon (mem_of_mem_rustTrim hm)
  have hlines : linesBytes (pre ++ [l]) ++ rest = linesBytes pre ++ (writelnBytes l ++ rest) := by
    rw [linesBytes_append]
    simp [linesBytes]
  rw [from_read_eq_from_readF, hlines, from_readF_pre pre false _ hpre,
    from_readF_line l rest _ _ hnl, if_neg (by simp [hhash]),
    if_neg (by simp [List.isEmpty_iff, hne]), hsplit]

theorem claim7_missing_colon_witness :
    ((∀ x ∈ ([['#', 'c']] : List Str), PreLine x) ∧ '\n' ∉ (['T', 'X', ' ', '1'] : Str) ∧
      rustTrim ['T', 'X', ' ', '1'] ≠ [] ∧
      startsWithHash (rustTrim ['T', 'X', ' ', '1']) = false ∧
      ':' ∉ (['T', 'X', ' ', '1'] : Str)) ∧
    from_read (linesBytes ([['#', 'c']] ++ [['T', 'X', ' ', '1']]) ++ [66]) =
      (.error .MissingColonAfterKey, [66]) :=
  ⟨⟨by decide, by decide, by decide, by decide, by decide⟩,
   claim7_missing_colon [['#', 'c']] ['T', 'X', ' ', '1'] [66] (by decide) (by decide)
     (by decide) (by decide) (by decide)⟩

/-- Claim C8: for every record whose description has no newline, the
block encoder emits exactly eight newline-terminated `KEY: value` lines
in the fixed canonical order (`TX_ID`, `TX_TYPE`, `FROM_USER_ID`,
`TO_USER_ID`, `AMOUNT`, `TIMESTAMP`, `STATUS`, `DESCRIPTION`) followed
by exactly one blank line, with integers rendered in decimal,
enumerations rendered by their canonical uppercase wire names and the
description emitted verbatim; in particular the output contains exactly
nine newline bytes. -/
theorem claim8_encoder_layout (r : YPBankTextRecord) (hd : '\n' ∉ r.description) :
    write_to r = linesBytes
      [['T', 'X', '_', 'I', 'D'] ++ ':' :: ' ' :: natToChars r.id,
       ['T', 'X', '_', 'T', 'Y', 'P', 'E'] ++ ':' :: ' ' :: r.transaction_type.toWire,
       ['F', 'R', 'O', 'M', '_', 'U', 'S', 'E', 'R', '_', 'I', 'D'] ++ ':' :: ' ' ::
         natToChars r.from_user_id,
       ['T', 'O', '_', 'U', 'S', 'E', 'R', '_', 'I', 'D'] ++ ':' :: ' ' ::
         natToChars r.to_user_id,
       ['A', 'M', 'O', 'U', 'N', 'T'] ++ ':' :: ' ' :: natToChars r.amount,
       ['T', 'I', 'M', 'E', 'S', 'T', 'A', 'M', 'P'] ++ ':' :: ' ' :: natToChars r.timestamp,
       ['S', 'T', 'A', 'T', 'U', 'S'] ++ ':' :: ' ' :: r.transaction_status.toWire,
       ['D', 'E', 'S', 'C', 'R', 'I', 'P', 'T', 'I', 'O', 'N'] ++ ':' :: ' ' :: r.description,
       []] ∧
    (write_to r).count 10 = 9 := by
  constructor
  · simp [write_to, linesBytes, List.append_assoc]
  · have c1 : (10 : Nat) ∉ utf8Encode (['T', 'X', '_', 'I', 'D', ':', ' '] ++
        natToChars r.id) :=
      newline_not_mem_utf8Encode _
        (no_newline_canonical ['T', 'X', '_', 'I', 'D'] (natToChars r.id) (by decide)
          (newline_not_mem_natToChars _))
    have c2 : (10 : Nat) ∉ utf8Encode (['T', 'X', '_', 'T', 'Y', 'P', 'E', ':', ' '] ++
        r.transaction_type.toWire) :=
      newline_not_mem_utf8Encode _
        (no_newline_canonical ['T', 'X', '_', 'T', 'Y', 'P', 'E'] r.transaction_type.toWire
          (by decide) (not_mem_newline_of_not_ws _ (TransactionType.toWire_ty_not_ws _)))
    have c3 : (10 : Nat) ∉ utf8Encode
        (['F', 'R', 'O', 'M', '_', 'U', 'S', 'E', 'R', '_', 'I', 'D', ':', ' '] ++
          natToChars r.from_user_id) :=
      newline_not_mem_utf8Encode _
        (no_newline_canonical ['F', 'R', 'O', 'M', '_', 'U', 'S', 'E', 'R', '_', 'I', 'D']
          (natToChars r.from_user_id) (by decide) (newline_not_mem_natToChars _))
    have c4 : (10 : Nat) ∉ utf8Encode (['T', 'O', '_', 'U', 'S', 'E', 'R', '_', 'I', 'D',
        ':', ' '] ++ natToChars r.to_user_id) :=
      newline_not_mem_utf8Encode _
        (no_newline_canonical ['T', 'O', '_', 'U', 'S', 'E', 'R', '_', 'I', 'D']
          (natToChars r.to_user_id) (by decide) (newline_not_mem_natToChars _))
    have c5 : (10 : Nat) ∉ utf8Encode (['A', 'M', 'O', 'U', 'N', 'T', ':', ' '] ++
        natToChars r.amount) :=
      newline_not_mem_utf8Encode _
        (no_newline_canonical ['A', 'M', 'O', 'U', 'N', 'T'] (natToChars r.amount) (by decide)
          (newline_not_mem_natToChars _))
    have c6 : (10 : Nat) ∉ utf8Encode (['T', 'I', 'M', 'E', 'S', 'T', 'A', 'M', 'P', ':',
        ' '] ++ natToChars r.timestamp) :=
      newline_not_mem_utf8Encode _
        (no_newline_canonical ['T', 'I', 'M', 'E', 'S', 'T', 'A', 'M', 'P']
          (natToChars r.timestamp) (by decide) (newline_not_mem_natToChars _))
    have c7 : (10 : Nat) ∉ utf8Encode (['S', 'T', 'A', 'T', 'U', 'S', ':', ' '] ++
        r.transaction_status.toWire) :=
      newline_not_mem_utf8Encode _
        (no_newline_canonical ['S', 'T', 'A', 'T', 'U', 'S'] r.transaction_status.toWire
          (by decide) (not_mem_newline_of_not_ws _ (TransactionStatus.toWire_st_not_ws _)))
    have c8 : (10 : Nat) ∉ utf8Encode (['D', 'E', 'S', 'C', 'R', 'I', 'P', 'T', 'I', 'O',
        'N', ':', ' '] ++ r.description) :=
      newline_not_mem_utf8Encode _
        (no_newline_canonical ['D', 'E', 'S', 'C', 'R', 'I', 'P', 'T', 'I', 'O', 'N']
          r.description (by decide) hd)
    simp only [write_to, writelnBytes, List.count_append,
      List.count_eq_zero.mpr c1, List.count_eq_zero.mpr c2, List.count_eq_zero.mpr c3,
      List.count_eq_zero.mpr c4, List.count_eq_zero.mpr c5, List.count_eq_zero.mpr c6,
      List.count_eq_zero.mpr c7, List.count_eq_zero.mpr c8]
    simp [List.count_cons, List.count_nil, utf8Encode]

theorem claim8_encoder_layout_witness :
    ('\n' ∉ exampleRecord.description) ∧
    (write_to exampleRecord = linesBytes
      [['T', 'X', '_', 'I', 'D'] ++ ':' :: ' ' :: natToChars exampleRecord.id,
       ['T', 'X', '_', 'T', 'Y', 'P', 'E'] ++ ':' :: ' ' ::
         exampleRecord.transaction_type.toWire,
       ['F', 'R', 'O', 'M', '_', 'U', 'S', 'E', 'R', '_', 'I', 'D'] ++ ':' :: ' ' ::
         natToChars exampleRecord.from_user_id,
       ['T', 'O', '_', 'U', 'S', 'E', 'R', '_', 'I', 'D'] ++ ':' :: ' ' ::
         natToChars exampleRecord.to_user_id,
       ['A', 'M', 'O', 'U', 'N', 'T'] ++ ':' :: ' ' :: natToChars exampleRecord.amount,
       ['T', 'I', 'M', 'E', 'S', 'T', 'A', 'M', 'P'] ++ ':' :: ' ' ::
         natToChars exampleRecord.timestamp,
       ['S', 'T', 'A', 'T', 'U', 'S'] ++ ':' :: ' ' :: exampleRecord.transaction_status.toWire,
       ['D', 'E', 'S', 'C', 'R', 'I', 'P', 'T', 'I', 'O', 'N'] ++ ':' :: ' ' ::
         exampleRecord.description,
       []] ∧
      (write_to exampleRecord).count 10 = 9) :=
  ⟨by decide, claim8_encoder_layout exampleRecord (by decide)⟩

/-- Claim C9: duplicated keys inside a block are not an error: the
mapping built by successive inserts keeps one entry per key, the value
of the last occurrence wins, and an otherwise valid block whose
`TX_ID` line appears twice decodes to the record carrying the
last-written value. -/
theorem claim9_duplicate_last_wins :
    (∀ (ps : List (Str × Str)) (k : Str),
      kvLookup (ps.foldl (fun m p => kvInsert m p.1 p.2) []) k =
        match (ps.filter fun p => p.1 = k).getLast? with
        | some q => some q.2
        | none => none) ∧
    (∀ ps : List (Str × Str), (kvKeys (ps.foldl (fun m p => kvInsert m p.1 p.2) [])).Nodup) ∧
    from_read dupKeyStream = (.ok dupRecord, []) := by
  refine ⟨?_, ?_, rfl⟩
  · intro ps k
    rw [foldl_kvInsert_lookup ps [] k]
    cases (ps.filter fun p => p.1 = k).getLast? <;> rfl
  · intro ps
    exact foldl_kvInsert_nodup ps [] (by simp [kvKeys])

/-- Claim C10: the block decoder is total over arbitrary byte inputs;
when the bytes of a line (after any number of blank or comment lines)
are not valid UTF-8, the decode call returns the typed error
`ParseError "Invalid UTF-8"` without reading past that line's
newline. -/
theorem claim10_invalid_utf8 (pre : List Str) (lb rest : List Nat)
    (hpre : ∀ x ∈ pre, PreLine x) (hbad : utf8Decode lb = none) (hnl : (10 : Nat) ∉ lb) :
    from_read (linesBytes pre ++ (lb ++ 10 :: rest)) =
      (.error (.ParseError invalidUtf8Msg), rest) := by
  rw [from_read_eq_from_readF, from_readF_pre pre false _ hpre,
    from_readF_bad_utf8 lb rest _ _ hbad hnl]

theorem claim10_invalid_utf8_witness :
    ((∀ x ∈ ([] : List Str), PreLine x) ∧ utf8Decode [255] = none ∧ (10 : Nat) ∉ [255]) ∧
    from_read (linesBytes [] ++ ([255] ++ 10 :: [7])) =
      (.error (.ParseError invalidUtf8Msg), [7]) :=
  ⟨⟨by decide, by decide, by decide⟩,
   claim10_invalid_utf8 [] [255] [7] (by decide) (by decide) (by decide)⟩

end TxnBlock
